import Mathlib

/-!
Verification of the hermes1d Fekete-points module (`fekete.py`).

Modelling conventions:

* Breakpoint coordinates are modelled by `ℚ` (the exact idealisation of the
  Python floats); element orders by `ℤ` (Python ints).
* Code paths that raise exceptions in Python (`NotImplementedError`,
  `AssertionError`, indexing a list with `None` or with an out-of-range
  index) are modelled by `Option`, with `none` for the raising path.
* The table of Gauss–Lobatto/Fekete reference points
  (`gauss_lobatto_points.points`, an external collaborator of the module)
  is an explicit parameter `refPts : ℕ → List ℚ`.
* The external dense linear solver (`numpy.linalg.solve`) is used by
  `Function.get_polynomial` only to solve the Vandermonde system
  `A c = y` with `A i j = (x_phys i)^(n-j-1)`; its contract (`A·c = y`
  exactly) says precisely that `c` is the coefficient vector of the unique
  polynomial of degree `< n` interpolating the values `y` at the `n`
  distinct physical points.  We therefore model the pair
  `get_polynomial` / `eval_polynomial` by that unique interpolating
  polynomial (`Lagrange.interpolate`) and its evaluation.
* `list.sort()` in Python is a stable sort; it is modelled by
  `List.insertionSort` (also stable, hence pointwise the same function on
  every input).
-/

namespace Fekete

/-- The geometric tolerance `1e-12` used by `fekete.py` in `union`,
`__eq__` and `restrict_to_interval`. -/
def eps : ℚ := 1 / 1000000000000

/-- `get_x_phys(x_ref, a, b)` from `fekete.py`: affine map from the
reference interval to the physical element `⟨a, b⟩`. -/
def get_x_phys (x_ref a b : ℚ) : ℚ := (a + b) / 2 + x_ref * (b - a) / 2

/-- The mesh class `Mesh1D` of `fekete.py`: a tuple of breakpoints and a
tuple of per-element polynomial orders.  (The constructor's
`len(points) == len(orders) + 1` check and the strict monotonicity the
code relies on are the predicate `Mesh1D.valid` below.) -/
structure Mesh1D where
  points : List ℚ
  orders : List ℤ
  deriving DecidableEq, Repr

/-- The invariant every mesh constructed by the Python code satisfies:
the constructor's length check, plus strictly increasing breakpoints
(`spec.md` §3: "points strictly increasing ... relied upon everywhere"). -/
def Mesh1D.valid (m : Mesh1D) : Prop :=
  m.points.length = m.orders.length + 1 ∧ m.points.Pairwise (· < ·)

/-- Consecutive breakpoints at least `eps` apart: the implicit
well-formedness assumption behind every `1e-12` tolerance comparison in
the code (`spec.md` §5). -/
def Mesh1D.sep (m : Mesh1D) : Prop :=
  m.points.Pairwise (fun x y => x + eps ≤ y)

/-- The element list underlying `Mesh1D.iter_elems`: consecutive
breakpoint pairs with their orders. -/
def elemsOf : List ℚ → List ℤ → List (ℚ × ℚ × ℤ)
  | a :: b :: ps, o :: os => (a, b, o) :: elemsOf (b :: ps) os
  | _, _ => []

/-- `Mesh1D.iter_elems` from `fekete.py`: the `(a, b, order)` triples of
the mesh, left to right. -/
def Mesh1D.iter_elems (m : Mesh1D) : List (ℚ × ℚ × ℤ) :=
  elemsOf m.points m.orders

/-- The scanning loop of `Mesh1D.element_at_point`: skip every element
whose right bound is `< x` (`if b < x: continue`), return the index of
the first remaining element; `none` when the loop falls through (Python
returns `None`). -/
def scanElems (x : ℚ) : List (ℚ × ℚ × ℤ) → Option ℕ
  | [] => none
  | (_, b, _) :: rest => if b < x then (scanElems x rest).map (· + 1) else some 0

/-- `Mesh1D.element_at_point` from `fekete.py`. -/
def Mesh1D.element_at_point (m : Mesh1D) (x : ℚ) : Option ℕ :=
  scanElems x m.iter_elems

/-- `Mesh1D.get_element_by_id` from `fekete.py` (`none` models the
`IndexError` on an out-of-range id). -/
def Mesh1D.get_element_by_id (m : Mesh1D) (n : ℕ) : Option (ℚ × ℚ × ℤ) :=
  m.iter_elems[n]?

/-- `Mesh1D.__eq__` from `fekete.py`: order tuples identical and
breakpoints pairwise within `eps`.  (The length conjunct reflects that
`numpy` can only subtract equal-length point arrays; for meshes obeying
the constructor invariant it is implied by equality of the orders.) -/
def Mesh1D.eq (m o : Mesh1D) : Bool :=
  m.orders == o.orders && m.points.length == o.points.length &&
    (m.points.zip o.points).all fun pq => |pq.1 - pq.2| < eps

/-- The duplicate-removal loop of `Mesh1D.union`: keep a point only when
it differs by at least `eps` from the last kept point. -/
def dedupGo (last : ℚ) : List ℚ → List ℚ
  | [] => []
  | q :: rest => if |last - q| < eps then dedupGo last rest else q :: dedupGo q rest

/-- `points = [p[0]]; for point in p[1:]: ...` from `Mesh1D.union`
(the Python code would raise on an empty list; meshes always have at
least one breakpoint). -/
def dedup : List ℚ → List ℚ
  | [] => []
  | q :: rest => q :: dedupGo q rest

/-- The composite `self._orders[self.element_at_point(mid)]` used by
`Mesh1D.union`; `none` models the `TypeError` of indexing with `None`
and the `IndexError` of an out-of-range index. -/
def Mesh1D.midOrder (m : Mesh1D) (x : ℚ) : Option ℤ :=
  (m.element_at_point x).bind fun i => m.orders[i]?

/-- `Mesh1D.union` from `fekete.py`: merge and sort the breakpoints,
deduplicate within `eps`, then give each resulting sub-interval the max
of the orders of the two elements containing its midpoint. -/
def Mesh1D.union (m o : Mesh1D) : Option Mesh1D := do
  let p := (m.points ++ o.points).insertionSort (· ≤ ·)
  let pts := dedup p
  let ords ← (pts.zip pts.tail).mapM fun pq => do
    let o1 ← m.midOrder ((pq.1 + pq.2) / 2)
    let o2 ← o.midOrder ((pq.1 + pq.2) / 2)
    pure (max o1 o2)
  pure ⟨pts, ords⟩

/-- `Mesh1D.restrict_to_interval` from `fekete.py`.  `none` models the
`assert B > A` failure, the two `raise NotImplementedError()` paths, and
element lookups on a `None` index. -/
def Mesh1D.restrict_to_interval (m : Mesh1D) (A B : ℚ) : Option Mesh1D := do
  if A < B then
    let n1 ← m.element_at_point A
    let n2 ← m.element_at_point B
    -- first element:
    let e1 ← m.get_element_by_id n1
    let (pts1, ords1) ←
      if |e1.2.1 - A| < eps then some (([] : List ℚ), ([] : List ℤ))
      else if |e1.1 - A| < eps then some ([e1.1], [e1.2.2])
      else if e1.1 < A then some ([A], [e1.2.2])
      else none
    -- middle elements:
    let midElems := (m.iter_elems.drop (n1 + 1)).take (n2 - (n1 + 1))
    let pts2 := pts1 ++ midElems.map (·.1)
    let ords2 := ords1 ++ midElems.map (·.2.2)
    -- last element:
    let e2 ← m.get_element_by_id n2
    let a := if |e2.1 - A| < eps then e2.1 else if e2.1 < A then A else e2.1
    let b ← if |e2.2.1 - B| < eps then some e2.2.1
      else if B < e2.2.1 then some B
      else none
    let appendLast : Bool :=
      match pts2.getLast? with
      | none => true
      | some q => !(|q - a| < eps)
    let pts3 := if appendLast then pts2 ++ [a] else pts2
    let ords3 := if appendLast then ords2 ++ [e2.2.2] else ords2
    pure ⟨pts3 ++ [b], ords3⟩
  else
    none

/-- The local helper `cand(divisions, orders)` inside
`generate_candidates`; the catch-all `none` models its `assert` /
`raise NotImplementedError()` paths. -/
def cand (a b : ℚ) (order : ℤ) : List ℚ → List ℤ → Option Mesh1D
  | [], [o0] => some ⟨[a, b], [order + o0]⟩
  | [d0], [o0, o1] => some ⟨[a, get_x_phys d0 a b, b], [order + o0, order + o1]⟩
  | _, _ => none

/-- `generate_candidates(a, b, order)` from `fekete.py`. -/
def generate_candidates (a b : ℚ) (order : ℤ) : Option (List Mesh1D) := do
  let cands ← ([cand a b order [] [0],
    cand a b order [] [1],
    cand a b order [] [2],
    cand a b order [1/2] [0, 0],
    cand a b order [1/2] [1, 0],
    cand a b order [1/2] [0, 1],
    cand a b order [1/2] [1, 1]] : List (Option Mesh1D)).mapM id
  if order > 1 then
    let extra ← ([cand a b order [1/2] [-1, 0],
      cand a b order [1/2] [0, -1],
      cand a b order [1/2] [-1, -1]] : List (Option Mesh1D)).mapM id
    pure (cands ++ extra)
  else
    pure cands

/-- `Function.dofs` from `fekete.py` depends only on the mesh:
`n = 1; for (a, b, order) in mesh: n += order`. -/
def meshDofs (m : Mesh1D) : ℤ :=
  1 + (m.iter_elems.map (fun e => e.2.2)).sum

/-- Default element used by `List.getD` on element lists. -/
def dElem : ℚ × ℚ × ℤ := (0, 0, 0)

/-- The function class `Function` of `fekete.py`: a mesh together with the
per-element nodal values at the mapped Fekete points. -/
structure Function where
  mesh : Mesh1D
  values : List (List ℚ)

/-- Construction of a `Function` from a callable (`Function.__init__` with
a non-sequence `obj`): sample the callable at the reference points of each
element mapped by `get_x_phys`.  `refPts` is the external
`gauss_lobatto_points.points` table. -/
def Function.sample (refPts : ℕ → List ℚ) (f : ℚ → ℚ) (m : Mesh1D) : Function :=
  ⟨m, m.iter_elems.map fun e => (refPts e.2.2.toNat).map fun p => f (get_x_phys p e.1 e.2.1)⟩

/-- The contract of the external reference-point table (spec §6): for
order `k` it returns `k + 1` increasing reference points. -/
def refPtsOK (refPts : ℕ → List ℚ) : Prop :=
  ∀ k, (refPts k).length = k + 1 ∧ (refPts k).Pairwise (· < ·)

/-- `Function.get_polynomial(values, a, b)` from `fekete.py`, composed
with `Function.eval_polynomial`: the code builds the Vandermonde system
`A c = y`, `A i j = get_x_phys(x[i], a, b)^(n-j-1)`, and hands it to the
external solver whose contract is `A·c = y` exactly; `c` is therefore the
coefficient vector of the unique polynomial of degree `< n` through the
`n` sampled points, i.e. the Lagrange interpolating polynomial, which is
what this definition returns (as a polynomial rather than a coefficient
list). -/
noncomputable def get_polynomial (refPts : ℕ → List ℚ) (values : List ℚ) (a b : ℚ) :
    Polynomial ℚ :=
  Lagrange.interpolate (Finset.range values.length)
    (fun i => get_x_phys ((refPts (values.length - 1)).getD i 0) a b)
    (fun i => values.getD i 0)

/-- `Function.__call__` from `fekete.py`: locate the element with the
same scan as `element_at_point`, rebuild its interpolating polynomial and
evaluate it; Python returns `None` when the scan falls through. -/
noncomputable def Function.call (refPts : ℕ → List ℚ) (f : Function) (x : ℚ) : Option ℚ :=
  (f.mesh.element_at_point x).bind fun n =>
    (f.mesh.get_element_by_id n).bind fun e =>
      (f.values[n]?).map fun vals =>
        (get_polynomial refPts vals e.1 e.2.1).eval x

/-- The candidate scoring rule inlined in
`Function.get_candidates_with_errors`; `none` models the
`raise NotImplementedError("Derefinement not implemented yet.")` path. -/
noncomputable def crit (dof_cand dof_orig : ℤ) (err_cand err_orig : ℝ) : Option ℝ :=
  if dof_cand = dof_orig then
    if err_cand < err_orig then some (-(10 : ℝ) ^ 10) else some ((10 : ℝ) ^ 10)
  else if dof_cand > dof_orig then
    some ((Real.log err_cand - Real.log err_orig) / Real.sqrt ((dof_cand : ℝ) - (dof_orig : ℝ)))
  else
    none

/-- The sort key `lambda x: x[1]` of `get_candidates_with_errors`. -/
def scoreLe (x y : Mesh1D × ℝ) : Prop := x.2 ≤ y.2

noncomputable instance : DecidableRel scoreLe := fun x y => Real.decidableLE x.2 y.2

instance : IsTotal (Mesh1D × ℝ) scoreLe := ⟨fun a b => le_total a.2 b.2⟩

instance : IsTrans (Mesh1D × ℝ) scoreLe := ⟨fun _ _ _ h1 h2 => le_trans h1 h2⟩

/-- `cand_with_errors.sort(key=lambda x: x[1])`: Python's stable sort,
modelled by the (equally stable) insertion sort. -/
noncomputable def sort_candidates (l : List (Mesh1D × ℝ)) : List (Mesh1D × ℝ) :=
  l.insertionSort scoreLe

/-- The accumulation loop of `Function.get_candidates_with_errors` before
the final sort.  The error values — computed in the Python code by Gauss
quadrature of the squared difference against the reference function `f`,
an external numerical primitive — are abstract parameters: `errF e cm` is
`err_cand` for candidate `cm` of element `e` and `errOrig e` is
`err_orig` for element `e`. -/
noncomputable def build_cand_with_errors (msh : Mesh1D)
    (errF : (ℚ × ℚ × ℤ) → Mesh1D → ℝ) (errOrig : (ℚ × ℚ × ℤ) → ℝ) :
    Option (List (Mesh1D × ℝ)) := do
  let ll ← msh.iter_elems.mapM fun e => do
    let cands ← generate_candidates e.1 e.2.1 e.2.2
    let orig ← msh.restrict_to_interval e.1 e.2.1
    cands.mapM fun cm => do
      let c ← crit (meshDofs cm) (meshDofs orig) (errF e cm) (errOrig e)
      pure (cm, c)
  pure ll.flatten

/-- `Function.get_candidates_with_errors` from `fekete.py`: build the
flat list of `(candidate, score)` pairs over all elements, then sort it
ascending by score. -/
noncomputable def get_candidates_with_errors (msh : Mesh1D)
    (errF : (ℚ × ℚ × ℤ) → Mesh1D → ℝ) (errOrig : (ℚ × ℚ × ℤ) → ℝ) :
    Option (List (Mesh1D × ℝ)) :=
  (build_cand_with_errors msh errF errOrig).map sort_candidates

/-- Proof helper: the sorted merge of a sorted list with itself repeats
every entry twice. -/
def doubled : List ℚ → List ℚ
  | [] => []
  | q :: t => q :: q :: doubled t

theorem elemsOf_length (ps : List ℚ) (os : List ℤ) :
    (elemsOf ps os).length = min (ps.length - 1) os.length := by
  induction ps generalizing os with
  | nil => cases os <;> simp [elemsOf]
  | cons a t ih =>
    cases t with
    | nil => cases os <;> simp [elemsOf]
    | cons b t2 =>
      cases os with
      | nil => simp [elemsOf]
      | cons o os2 =>
        have := ih os2
        simp only [elemsOf, List.length_cons] at this ⊢
        omega

theorem elemsOf_getElem? (ps : List ℚ) (os : List ℤ) (i : ℕ)
    (h1 : i + 1 < ps.length) (h2 : i < os.length) :
    (elemsOf ps os)[i]? = some (ps.getD i 0, ps.getD (i + 1) 0, os.getD i 0) := by
  induction ps generalizing os i with
  | nil => simp at h1
  | cons a t ih =>
    cases t with
    | nil => simp at h1
    | cons b t2 =>
      cases os with
      | nil => simp at h2
      | cons o os2 =>
        cases i with
        | zero => simp [elemsOf]
        | succ j =>
          have := ih os2 j (by simpa using h1) (by simpa using h2)
          simpa [elemsOf] using this

theorem scanElems_eq_none_iff (x : ℚ) (l : List (ℚ × ℚ × ℤ)) :
    scanElems x l = none ↔ ∀ e ∈ l, e.2.1 < x := by
  induction l with
  | nil => simp [scanElems]
  | cons e t ih =>
    obtain ⟨a, b, o⟩ := e
    by_cases hb : b < x
    · simp [scanElems, if_pos hb, ih, hb]
    · simp [scanElems, if_neg hb, hb]

theorem scanElems_eq_some_iff (x : ℚ) (l : List (ℚ × ℚ × ℤ)) (n : ℕ) :
    scanElems x l = some n ↔
      n < l.length ∧ ¬ ((l.getD n dElem).2.1 < x) ∧
        ∀ k < n, (l.getD k dElem).2.1 < x := by
  induction l generalizing n with
  | nil => simp [scanElems]
  | cons e t ih =>
    obtain ⟨a, b, o⟩ := e
    by_cases hb : b < x
    · cases n with
      | zero =>
        simp [scanElems, if_pos hb, hb]
      | succ m =>
        simp only [scanElems, if_pos hb]
        rw [show (some (m + 1) = Option.map (· + 1) (some m)) from rfl]
        constructor
        · intro h
          have hm : scanElems x t = some m := by
            rcases Option.map_eq_some'.mp h with ⟨z, hz, hz1⟩
            have hz2 : z + 1 = m + 1 := hz1
            have : z = m := by omega
            rw [← this]; exact hz
          have := (ih m).mp hm
          refine ⟨by simpa using Nat.succ_lt_succ this.1, by simpa using this.2.1, ?_⟩
          intro k hk
          cases k with
          | zero => simpa using hb
          | succ j => simpa using this.2.2 j (by omega)
        · rintro ⟨h1, h2, h3⟩
          have hm : scanElems x t = some m := by
            refine (ih m).mpr ⟨by simpa using h1, by simpa using h2, ?_⟩
            intro k hk
            simpa using h3 (k + 1) (by omega)
          rw [hm]
    · cases n with
      | zero => simp [scanElems, if_neg hb, hb]
      | succ m =>
        simp only [scanElems, if_neg hb]
        constructor
        · intro h; exact absurd h (by simp)
        · rintro ⟨h1, h2, h3⟩
          exact absurd (by simpa using h3 0 (by omega)) hb

theorem getD_lt_getD_of_sorted (ps : List ℚ) (hps : ps.Pairwise (· < ·))
    (i j : ℕ) (hij : i < j) (hj : j < ps.length) :
    ps.getD i 0 < ps.getD j 0 := by
  have hi : i < ps.length := lt_trans hij hj
  rw [List.getD_eq_getElem?_getD, List.getD_eq_getElem?_getD,
    List.getElem?_eq_getElem hi, List.getElem?_eq_getElem hj]
  exact List.pairwise_iff_getElem.mp hps i j hi hj hij

theorem iterElems_length (m : Mesh1D) (hlen : m.points.length = m.orders.length + 1) :
    m.iter_elems.length = m.orders.length := by
  rw [Mesh1D.iter_elems, elemsOf_length]; omega

theorem iterElems_getD (m : Mesh1D) (hlen : m.points.length = m.orders.length + 1)
    (i : ℕ) (hi : i < m.orders.length) :
    m.iter_elems.getD i dElem =
      (m.points.getD i 0, m.points.getD (i + 1) 0, m.orders.getD i 0) := by
  rw [List.getD_eq_getElem?_getD, Mesh1D.iter_elems,
    elemsOf_getElem? _ _ _ (by omega) hi]
  rfl

/-- A successful `element_at_point` on a valid mesh: if
`points[i] < x ≤ points[i+1]` then element `i` is returned. -/
theorem element_at_point_of_mem (m : Mesh1D) (hm : m.valid) (x : ℚ) (i : ℕ)
    (hi : i < m.orders.length)
    (hlo : m.points.getD i 0 < x) (hhi : x ≤ m.points.getD (i + 1) 0) :
    m.element_at_point x = some i := by
  obtain ⟨hlen, hsort⟩ := hm
  rw [Mesh1D.element_at_point, scanElems_eq_some_iff]
  refine ⟨by rw [iterElems_length m hlen]; exact hi, ?_, ?_⟩
  · rw [iterElems_getD m hlen i hi]
    simpa using not_lt.mpr hhi
  · intro k hk
    rw [iterElems_getD m hlen k (by omega)]
    simp only
    rcases Nat.lt_or_ge (k + 1) i with h | h
    · exact lt_trans (getD_lt_getD_of_sorted _ hsort _ _ h (by omega)) hlo
    · have : k + 1 = i := by omega
      rw [this]; exact hlo

/-- On a valid nonempty mesh, every `x` to the left of the last breakpoint
is assigned an element, with the "first right bound `≥ x`" characterisation. -/
theorem element_at_point_some (m : Mesh1D) (hm : m.valid) (x : ℚ)
    (hne : m.orders ≠ [])
    (hx : x ≤ m.points.getD (m.points.length - 1) 0) :
    ∃ n, m.element_at_point x = some n ∧ n < m.orders.length ∧
      x ≤ m.points.getD (n + 1) 0 ∧ ∀ k < n, m.points.getD (k + 1) 0 < x := by
  obtain ⟨hlen, hsort⟩ := hm
  have hos : 0 < m.orders.length := List.length_pos.mpr hne
  have hex : ∃ n, n < m.orders.length ∧ x ≤ m.points.getD (n + 1) 0 := by
    refine ⟨m.orders.length - 1, by omega, ?_⟩
    have : m.orders.length - 1 + 1 = m.points.length - 1 := by omega
    rw [this]; exact hx
  classical
  have hn := Nat.find_spec hex
  have hmin : ∀ k < Nat.find hex, m.points.getD (k + 1) 0 < x := by
    intro k hk
    have h2 := Nat.find_min hex hk
    push_neg at h2
    exact h2 (by omega)
  refine ⟨Nat.find hex, ?_, hn.1, hn.2, hmin⟩
  rw [Mesh1D.element_at_point, scanElems_eq_some_iff]
  refine ⟨by rw [iterElems_length m hlen]; exact hn.1, ?_, ?_⟩
  · rw [iterElems_getD m hlen _ hn.1]
    simpa using not_lt.mpr hn.2
  · intro k hk
    rw [iterElems_getD m hlen k (by omega)]
    simpa using hmin k hk

/-- `element_at_point` falls through (returns `None`) exactly on points
strictly right of the last breakpoint. -/
theorem element_at_point_none (m : Mesh1D) (hm : m.valid) (x : ℚ)
    (hx : m.points.getD (m.points.length - 1) 0 < x) :
    m.element_at_point x = none := by
  obtain ⟨hlen, hsort⟩ := hm
  rw [Mesh1D.element_at_point, scanElems_eq_none_iff]
  intro e he
  obtain ⟨i, hi, hie⟩ := List.getElem_of_mem he
  have hil : i < m.orders.length := by
    rw [iterElems_length m hlen] at hi
    exact hi
  have : e = (m.points.getD i 0, m.points.getD (i + 1) 0, m.orders.getD i 0) := by
    rw [← hie, ← iterElems_getD m hlen i hil, List.getD_eq_getElem?_getD,
      List.getElem?_eq_getElem (by rw [iterElems_length m hlen]; exact hil)]
    rfl
  rw [this]
  simp only
  rcases Nat.lt_or_ge (i + 1) (m.points.length - 1) with h | h
  · exact lt_trans (getD_lt_getD_of_sorted _ hsort _ _ h (by omega)) hx
  · have : i + 1 = m.points.length - 1 := by omega
    rw [this]; exact hx

theorem mapM_eq_some_map {α β : Type} (f : α → Option β) (g : α → β) :
    ∀ l : List α, (∀ a ∈ l, f a = some (g a)) → l.mapM f = some (l.map g) := by
  intro l
  induction l with
  | nil => intro _; rfl
  | cons a t ih =>
    intro h
    rw [List.mapM_cons, h a (by simp), ih (fun b hb => h b (by simp [hb]))]
    rfl

theorem eps_pos : 0 < eps := by norm_num [eps]

theorem zip_all_abs_iff (ps qs : List ℚ) (h : ps.length = qs.length) :
    (((ps.zip qs).all fun pq => |pq.1 - pq.2| < eps) = true ↔
      ∀ i < ps.length, |ps.getD i 0 - qs.getD i 0| < eps) := by
  rw [List.all_eq_true]
  constructor
  · intro h2 i hi
    have hiz : i < (ps.zip qs).length := by simp [List.length_zip]; omega
    have hmem := List.getElem_mem hiz
    have := h2 _ hmem
    rw [List.getElem_zip] at this
    rw [List.getD_eq_getElem?_getD, List.getD_eq_getElem?_getD,
      List.getElem?_eq_getElem hi, List.getElem?_eq_getElem (by omega)]
    simpa using this
  · intro h2 pq hpq
    obtain ⟨i, hi, hie⟩ := List.getElem_of_mem hpq
    have hips : i < ps.length := by simp [List.length_zip] at hi; omega
    have hiqs : i < qs.length := by simp [List.length_zip] at hi; omega
    rw [← hie, List.getElem_zip]
    have := h2 i hips
    rw [List.getD_eq_getElem?_getD, List.getD_eq_getElem?_getD,
      List.getElem?_eq_getElem hips, List.getElem?_eq_getElem hiqs] at this
    simpa using this

theorem meshEq_iff (m o : Mesh1D) :
    Mesh1D.eq m o = true ↔
      m.orders = o.orders ∧ m.points.length = o.points.length ∧
        ∀ i < m.points.length, |m.points.getD i 0 - o.points.getD i 0| < eps := by
  rw [Mesh1D.eq, Bool.and_eq_true, Bool.and_eq_true]
  constructor
  · rintro ⟨⟨h1, h2⟩, h3⟩
    have h2n : m.points.length = o.points.length := by simpa using h2
    exact ⟨by simpa using h1, h2n, (zip_all_abs_iff _ _ h2n).mp h3⟩
  · rintro ⟨h1, h2, h3⟩
    exact ⟨⟨by simpa using h1, by simpa using h2⟩, (zip_all_abs_iff _ _ h2).mpr h3⟩

theorem meshEq_refl (m : Mesh1D) : Mesh1D.eq m m = true := by
  rw [meshEq_iff]
  exact ⟨rfl, rfl, fun i _ => by simpa using eps_pos⟩

theorem meshEq_symm (m o : Mesh1D) : Mesh1D.eq m o = Mesh1D.eq o m := by
  rw [← Bool.coe_iff_coe, meshEq_iff, meshEq_iff]
  constructor
  · rintro ⟨h1, h2, h3⟩
    refine ⟨h1.symm, h2.symm, fun i hi => ?_⟩
    rw [abs_sub_comm]
    exact h3 i (by omega)
  · rintro ⟨h1, h2, h3⟩
    refine ⟨h1.symm, h2.symm, fun i hi => ?_⟩
    rw [abs_sub_comm]
    exact h3 i (by omega)

/-- Claim C5: `Mesh1D.__eq__` holds iff the order tuples are identical
and corresponding breakpoints differ by less than `1e-12`; mesh equality
is reflexive and symmetric, and meshes with different order sequences
are unequal even when their breakpoints agree. -/
theorem claim5_mesh_equality (m o : Mesh1D) :
    (Mesh1D.eq m o = true ↔
      m.orders = o.orders ∧ m.points.length = o.points.length ∧
        ∀ i < m.points.length, |m.points.getD i 0 - o.points.getD i 0| < eps) ∧
    Mesh1D.eq m m = true ∧
    Mesh1D.eq m o = Mesh1D.eq o m ∧
    (m.orders ≠ o.orders → Mesh1D.eq m o = false) := by
  refine ⟨meshEq_iff m o, meshEq_refl m, meshEq_symm m o, fun hne => ?_⟩
  rw [Bool.eq_false_iff]
  intro h
  exact hne ((meshEq_iff m o).mp h).1

/-- Witness for C5 at concrete meshes: equal orders and breakpoints give
equality; differing orders give inequality even on equal breakpoints. -/
theorem claim5_mesh_equality_witness :
    Mesh1D.eq ⟨[0, 1], [1]⟩ ⟨[0, 1], [1]⟩ = true ∧
    Mesh1D.eq ⟨[0, 1], [1]⟩ ⟨[0, 1], [2]⟩ = false := by
  refine ⟨(claim5_mesh_equality ⟨[0, 1], [1]⟩ ⟨[0, 1], [1]⟩).2.1, ?_⟩
  exact (claim5_mesh_equality ⟨[0, 1], [1]⟩ ⟨[0, 1], [2]⟩).2.2.2 (by decide)

/-- Counterexample to C2's tie-break sentence: at the shared breakpoint
`x = 1` of `Mesh1D((0,1,2),(1,1))` the code returns element `0` — the
element to the *left* of the breakpoint (the first one whose right bound
equals `x`) — not element `1`, the element to the right. -/
theorem claim2_counterexample :
    Mesh1D.element_at_point ⟨[0, 1, 2], [1, 1]⟩ 1 = some 0 ∧
    Mesh1D.element_at_point ⟨[0, 1, 2], [1, 1]⟩ 1 ≠ some 1 := by
  have h : Mesh1D.element_at_point ⟨[0, 1, 2], [1, 1]⟩ 1 = some 0 := by
    norm_num [Mesh1D.element_at_point, Mesh1D.iter_elems, elemsOf, scanElems]
  exact ⟨h, by rw [h]; simp⟩

/-- Claim C2 (amended): on a valid mesh, for `x` not greater than the
last breakpoint, `element_at_point` returns the index of the first
element (left to right) whose right bound is `≥ x`; in particular at a
breakpoint shared by two adjacent elements the element to the *left* of
the breakpoint is returned. -/
theorem claim2_element_at_point (m : Mesh1D) (x : ℚ) (i : ℕ)
    (hm : m.valid) (hne : m.orders ≠ [])
    (hx : x ≤ m.points.getD (m.points.length - 1) 0)
    (hipos : 0 < i) (hi : i < m.points.length) :
    (∃ n, m.element_at_point x = some n ∧ n < m.orders.length ∧
      x ≤ m.points.getD (n + 1) 0 ∧ ∀ k < n, m.points.getD (k + 1) 0 < x) ∧
    m.element_at_point (m.points.getD i 0) = some (i - 1) := by
  refine ⟨element_at_point_some m hm x hne hx, ?_⟩
  have hlen := hm.1
  have hio : i - 1 < m.orders.length := by omega
  apply element_at_point_of_mem m hm _ (i - 1) hio
  · exact getD_lt_getD_of_sorted _ hm.2 _ _ (by omega) hi
  · have h1 : i - 1 + 1 = i := by omega
    rw [h1]

/-- Witness for the amended C2 on `Mesh1D((0,1,2),(1,1))` with the
interior point `x = 3/2` and the shared breakpoint `points[1] = 1`. -/
theorem claim2_element_at_point_witness :
    (∃ n, Mesh1D.element_at_point ⟨[0, 1, 2], [1, 1]⟩ (3/2) = some n ∧
      n < 2 ∧ (3/2 : ℚ) ≤ List.getD [0, 1, 2] (n + 1) 0 ∧
      ∀ k < n, List.getD [0, 1, 2] (k + 1) 0 < (3/2 : ℚ)) ∧
    Mesh1D.element_at_point ⟨[0, 1, 2], [1, 1]⟩ (List.getD [0, 1, 2] 1 0) = some 0 :=
  claim2_element_at_point ⟨[0, 1, 2], [1, 1]⟩ (3/2) 1
    ⟨rfl, by norm_num⟩ (by simp) (by norm_num [List.getD]) (by norm_num) (by norm_num)

/-- Claim C6, the code's behaviour at the failing input `(a, b, order) =
(0, 1, 1)`: the split candidates place their interior breakpoint at
`get_x_phys(0.5, a, b) = (a + 3b)/4 = 3/4`, not at the midpoint
`(a + b)/2 = 1/2` stated by the claim and spec §4.3. -/
theorem claim6_split_not_midpoint :
    generate_candidates 0 1 1 = some
      [⟨[0, 1], [1]⟩, ⟨[0, 1], [2]⟩, ⟨[0, 1], [3]⟩,
       ⟨[0, 3/4, 1], [1, 1]⟩, ⟨[0, 3/4, 1], [2, 1]⟩,
       ⟨[0, 3/4, 1], [1, 2]⟩, ⟨[0, 3/4, 1], [2, 2]⟩] ∧
    get_x_phys (1/2) 0 1 = 3/4 ∧ (3/4 : ℚ) ≠ (0 + 1) / 2 := by
  refine ⟨?_, by norm_num [get_x_phys], by norm_num⟩
  norm_num [generate_candidates, cand, get_x_phys, bind, Option.bind,
    List.mapM, List.mapM.loop]

theorem crit_ne_none (dc d0 : ℤ) (h : d0 ≤ dc) (ec eo : ℝ) :
    crit dc d0 ec eo ≠ none := by
  by_cases h1 : dc = d0
  · simp only [crit, if_pos h1]
    split <;> simp
  · have h2 : dc > d0 := lt_of_le_of_ne h (Ne.symm h1)
    simp [crit, h1, h2]

/-- Claim C9: every candidate generated for `(a, b, order)` with
`order ≥ 0` has at least as many DOFs as the single-element restriction
of the original (which has `1 + order`), so the derefinement branch of
the scoring (`crit ... = none`) is unreachable for generated candidates. -/
theorem claim9_no_derefinement (a b : ℚ) (order : ℤ) (hord : 0 ≤ order)
    (l : List Mesh1D) (hl : generate_candidates a b order = some l) :
    meshDofs ⟨[a, b], [order]⟩ = 1 + order ∧
    ∀ cm ∈ l, 1 + order ≤ meshDofs cm ∧
      ∀ ec eo : ℝ, crit (meshDofs cm) (1 + order) ec eo ≠ none := by
  constructor
  · simp [meshDofs, Mesh1D.iter_elems, elemsOf]
  · intro cm hcm
    by_cases h2 : order > 1
    · have hgen : generate_candidates a b order = some
          [⟨[a, b], [order + 0]⟩, ⟨[a, b], [order + 1]⟩, ⟨[a, b], [order + 2]⟩,
           ⟨[a, get_x_phys (1/2) a b, b], [order + 0, order + 0]⟩,
           ⟨[a, get_x_phys (1/2) a b, b], [order + 1, order + 0]⟩,
           ⟨[a, get_x_phys (1/2) a b, b], [order + 0, order + 1]⟩,
           ⟨[a, get_x_phys (1/2) a b, b], [order + 1, order + 1]⟩,
           ⟨[a, get_x_phys (1/2) a b, b], [order + -1, order + 0]⟩,
           ⟨[a, get_x_phys (1/2) a b, b], [order + 0, order + -1]⟩,
           ⟨[a, get_x_phys (1/2) a b, b], [order + -1, order + -1]⟩] := by
        simp [generate_candidates, cand, h2, bind, Option.bind,
          List.mapM, List.mapM.loop]
      rw [hgen] at hl
      have hlv := Option.some_injective _ hl.symm
      rw [hlv] at hcm
      have hdof : 1 + order ≤ meshDofs cm := by
        simp only [List.mem_cons, List.not_mem_nil, or_false] at hcm
        rcases hcm with h | h | h | h | h | h | h | h | h | h <;>
          (rw [h]; simp only [meshDofs, Mesh1D.iter_elems, elemsOf, List.map_cons,
            List.map_nil, List.sum_cons, List.sum_nil]; omega)
      exact ⟨hdof, fun ec eo => crit_ne_none _ _ hdof ec eo⟩
    · have hgen : generate_candidates a b order = some
          [⟨[a, b], [order + 0]⟩, ⟨[a, b], [order + 1]⟩, ⟨[a, b], [order + 2]⟩,
           ⟨[a, get_x_phys (1/2) a b, b], [order + 0, order + 0]⟩,
           ⟨[a, get_x_phys (1/2) a b, b], [order + 1, order + 0]⟩,
           ⟨[a, get_x_phys (1/2) a b, b], [order + 0, order + 1]⟩,
           ⟨[a, get_x_phys (1/2) a b, b], [order + 1, order + 1]⟩] := by
        simp [generate_candidates, cand, h2, bind, Option.bind,
          List.mapM, List.mapM.loop]
      rw [hgen] at hl
      have hlv := Option.some_injective _ hl.symm
      rw [hlv] at hcm
      have hdof : 1 + order ≤ meshDofs cm := by
        simp only [List.mem_cons, List.not_mem_nil, or_false] at hcm
        rcases hcm with h | h | h | h | h | h | h <;>
          (rw [h]; simp only [meshDofs, Mesh1D.iter_elems, elemsOf, List.map_cons,
            List.map_nil, List.sum_cons, List.sum_nil]; omega)
      exact ⟨hdof, fun ec eo => crit_ne_none _ _ hdof ec eo⟩

/-- Witness for C9 on the element `(0, 1, 0)` and its seven generated
candidates. -/
theorem claim9_no_derefinement_witness :
    meshDofs ⟨[(0 : ℚ), 1], [(0 : ℤ)]⟩ = 1 + 0 ∧
    ∀ cm ∈ [(⟨[0, 1], [0 + 0]⟩ : Mesh1D), ⟨[0, 1], [0 + 1]⟩, ⟨[0, 1], [0 + 2]⟩,
       ⟨[0, get_x_phys (1/2) 0 1, 1], [0 + 0, 0 + 0]⟩,
       ⟨[0, get_x_phys (1/2) 0 1, 1], [0 + 1, 0 + 0]⟩,
       ⟨[0, get_x_phys (1/2) 0 1, 1], [0 + 0, 0 + 1]⟩,
       ⟨[0, get_x_phys (1/2) 0 1, 1], [0 + 1, 0 + 1]⟩], 1 + 0 ≤ meshDofs cm ∧
      ∀ ec eo : ℝ, crit (meshDofs cm) (1 + 0) ec eo ≠ none :=
  claim9_no_derefinement 0 1 0 (by norm_num) _
    (by simp [generate_candidates, cand, bind, Option.bind, List.mapM, List.mapM.loop])

/-- Claim C1: the score assigned to a candidate is `-1e10` at equal DOFs
with strictly smaller error, `+1e10` at equal DOFs otherwise,
`(ln err_cand - ln err_orig)/sqrt(dof_cand - dof_orig)` at raised DOFs,
and an explicit failure (`none`, the "Derefinement not implemented yet."
exception) at lowered DOFs; `get_candidates_with_errors` is the
score-ascending sort of the accumulated `(candidate, score)` list, so
any returned list is sorted by score and index 0 is the best candidate. -/
theorem claim1_scoring (dc d0 : ℤ) (ec eo : ℝ) (msh : Mesh1D)
    (errF : (ℚ × ℚ × ℤ) → Mesh1D → ℝ) (errOrig : (ℚ × ℚ × ℤ) → ℝ) :
    (dc = d0 → ec < eo → crit dc d0 ec eo = some (-(10 : ℝ) ^ 10)) ∧
    (dc = d0 → eo ≤ ec → crit dc d0 ec eo = some ((10 : ℝ) ^ 10)) ∧
    (d0 < dc → crit dc d0 ec eo =
      some ((Real.log ec - Real.log eo) / Real.sqrt ((dc : ℝ) - (d0 : ℝ)))) ∧
    (dc < d0 → crit dc d0 ec eo = none) ∧
    get_candidates_with_errors msh errF errOrig =
      (build_cand_with_errors msh errF errOrig).map sort_candidates ∧
    ∀ res, get_candidates_with_errors msh errF errOrig = some res →
      res.Pairwise scoreLe := by
  refine ⟨?_, ?_, ?_, ?_, rfl, ?_⟩
  · intro h1 h2
    simp [crit, h1, h2]
  · intro h1 h2
    simp [crit, h1, not_lt.mpr h2]
  · intro h
    simp [crit, ne_of_gt h, h]
  · intro h
    have h2 : ¬ (dc > d0) := not_lt.mpr (le_of_lt h)
    simp [crit, ne_of_lt h, h2]
  · intro res hres
    obtain ⟨raw, _, hsort⟩ := Option.map_eq_some'.mp hres
    rw [← hsort]
    exact List.sorted_insertionSort scoreLe raw

/-- Witness for C1: each scoring branch at concrete numbers, and the
sortedness of a concrete (empty-mesh) run of the full pipeline. -/
theorem claim1_scoring_witness :
    crit 5 5 1 2 = some (-(10 : ℝ) ^ 10) ∧
    crit 5 5 2 1 = some ((10 : ℝ) ^ 10) ∧
    crit 6 5 1 2 =
      some ((Real.log 1 - Real.log 2) / Real.sqrt (((6 : ℤ) : ℝ) - ((5 : ℤ) : ℝ))) ∧
    crit 4 5 1 2 = none ∧
    ∀ res, get_candidates_with_errors ⟨[0], []⟩ (fun _ _ => 0) (fun _ => 0) = some res →
      res.Pairwise scoreLe := by
  refine ⟨?_, ?_, ?_, ?_, ?_⟩
  · exact (claim1_scoring 5 5 1 2 ⟨[0], []⟩ (fun _ _ => 0) (fun _ => 0)).1
      rfl (by norm_num)
  · exact (claim1_scoring 5 5 2 1 ⟨[0], []⟩ (fun _ _ => 0) (fun _ => 0)).2.1
      rfl (by norm_num)
  · exact (claim1_scoring 6 5 1 2 ⟨[0], []⟩ (fun _ _ => 0) (fun _ => 0)).2.2.1
      (by norm_num)
  · exact (claim1_scoring 4 5 1 2 ⟨[0], []⟩ (fun _ _ => 0) (fun _ => 0)).2.2.2.1
      (by norm_num)
  · exact (claim1_scoring 0 0 0 0 ⟨[0], []⟩ (fun _ _ => 0) (fun _ => 0)).2.2.2.2.2

/-- Claim C10: for `x` strictly left of the first breakpoint,
`element_at_point` returns element 0 and `Function.__call__`
extrapolates the first element's interpolating polynomial; for `y`
strictly right of the last breakpoint, `element_at_point` returns `None`
and so does `Function.__call__`. -/
theorem claim10_out_of_domain (refPts : ℕ → List ℚ) (f : Function) (x y : ℚ)
    (hm : f.mesh.valid) (hne : f.mesh.orders ≠ [])
    (hv : f.values.length = f.mesh.orders.length)
    (hx : x < f.mesh.points.getD 0 0)
    (hy : f.mesh.points.getD (f.mesh.points.length - 1) 0 < y) :
    (f.mesh.element_at_point x = some 0 ∧
      Function.call refPts f x = some ((get_polynomial refPts (f.values.getD 0 [])
        (f.mesh.points.getD 0 0) (f.mesh.points.getD 1 0)).eval x)) ∧
    (f.mesh.element_at_point y = none ∧ Function.call refPts f y = none) := by
  have hlen := hm.1
  have hos : 0 < f.mesh.orders.length := List.length_pos.mpr hne
  have heap0 : f.mesh.element_at_point x = some 0 := by
    rw [Mesh1D.element_at_point, scanElems_eq_some_iff]
    refine ⟨by rw [iterElems_length _ hlen]; exact hos, ?_, by omega⟩
    rw [iterElems_getD _ hlen 0 hos]
    simp only
    intro hcon
    have h01 : f.mesh.points.getD 0 0 < f.mesh.points.getD 1 0 :=
      getD_lt_getD_of_sorted _ hm.2 0 1 (by omega) (by omega)
    exact absurd hcon (by push_neg; exact le_of_lt (lt_trans hx h01))
  have hgid : f.mesh.get_element_by_id 0 =
      some (f.mesh.points.getD 0 0, f.mesh.points.getD 1 0, f.mesh.orders.getD 0 0) := by
    rw [Mesh1D.get_element_by_id, Mesh1D.iter_elems,
      elemsOf_getElem? _ _ 0 (by omega) hos]
  have hvals : f.values[0]? = some (f.values.getD 0 []) := by
    rw [List.getD_eq_getElem?_getD, List.getElem?_eq_getElem (by omega)]
    rfl
  refine ⟨⟨heap0, ?_⟩, ?_⟩
  · rw [Function.call, heap0, Option.some_bind, hgid, Option.some_bind, hvals]
    rfl
  · have heapn : f.mesh.element_at_point y = none :=
      element_at_point_none f.mesh hm y hy
    exact ⟨heapn, by rw [Function.call, heapn, Option.none_bind]⟩

/-- Witness for C10 on `Function(values=[[0,0]], mesh=Mesh1D((0,1),(1)))`
with `x = -1` (left of the domain) and `y = 2` (right of the domain). -/
theorem claim10_out_of_domain_witness :
    ((Mesh1D.element_at_point ⟨[0, 1], [1]⟩ (-1) = some 0 ∧
      Function.call (fun _ => []) ⟨⟨[0, 1], [1]⟩, [[0, 0]]⟩ (-1) =
        some ((get_polynomial (fun _ => []) (List.getD [[0, 0]] 0 [])
          (List.getD [0, 1] 0 0) (List.getD [0, 1] 1 0)).eval (-1))) ∧
    (Mesh1D.element_at_point ⟨[0, 1], [1]⟩ 2 = none ∧
      Function.call (fun _ => []) ⟨⟨[0, 1], [1]⟩, [[0, 0]]⟩ 2 = none)) :=
  claim10_out_of_domain (fun _ => []) ⟨⟨[0, 1], [1]⟩, [[0, 0]]⟩ (-1) 2
    ⟨rfl, by norm_num⟩ (by simp) rfl (by norm_num [List.getD]) (by norm_num [List.getD])

theorem dedupGo_skip (last q : ℚ) (rest : List ℚ) (h : |last - q| < eps) :
    dedupGo last (q :: rest) = dedupGo last rest := by
  simp [dedupGo, h]

theorem dedupGo_keep (last q : ℚ) (rest : List ℚ) (h : ¬ |last - q| < eps) :
    dedupGo last (q :: rest) = q :: dedupGo q rest := by
  simp [dedupGo, h]

theorem dedupGo_subset (last : ℚ) (l : List ℚ) :
    ∀ x ∈ dedupGo last l, x ∈ l := by
  induction l generalizing last with
  | nil => simp [dedupGo]
  | cons q rest ih =>
    intro x hx
    by_cases h : |last - q| < eps
    · rw [dedupGo_skip _ _ _ h] at hx
      exact List.mem_cons_of_mem _ (ih last x hx)
    · rw [dedupGo_keep _ _ _ h] at hx
      rcases List.mem_cons.mp hx with h1 | h1
      · simp [h1]
      · exact List.mem_cons_of_mem _ (ih q x h1)

theorem dedupGo_strong (last : ℚ) (l : List ℚ) (hl : l.Pairwise (· ≤ ·))
    (hlast : ∀ q ∈ l, last ≤ q) :
    (dedupGo last l).Pairwise (fun x y => x + eps ≤ y) ∧
      ∀ r ∈ dedupGo last l, last + eps ≤ r := by
  induction l generalizing last with
  | nil => exact ⟨List.Pairwise.nil, by simp [dedupGo]⟩
  | cons q rest ih =>
    have hql := hlast q (by simp)
    have hqr : ∀ r ∈ rest, q ≤ r := (List.pairwise_cons.mp hl).1
    by_cases h : |last - q| < eps
    · rw [dedupGo_skip _ _ _ h]
      exact ih last (List.pairwise_cons.mp hl).2
        (fun r hr => le_trans hql (hqr r hr))
    · rw [dedupGo_keep _ _ _ h]
      have hq : last + eps ≤ q := by
        rw [abs_sub_comm, abs_of_nonneg (by linarith)] at h
        linarith [not_lt.mp h]
      obtain ⟨hp, hb⟩ := ih q (List.pairwise_cons.mp hl).2 hqr
      refine ⟨List.Pairwise.cons (fun r hr => hb r hr) hp, ?_⟩
      intro r hr
      rcases List.mem_cons.mp hr with h1 | h1
      · rw [h1]; exact hq
      · have := hb r h1
        have heps := eps_pos
        linarith

theorem dedupGo_cover (last : ℚ) (l : List ℚ) :
    ∀ q ∈ l, ∃ r ∈ last :: dedupGo last l, |q - r| < eps := by
  induction l generalizing last with
  | nil => simp
  | cons q2 rest ih =>
    intro q hq
    by_cases h : |last - q2| < eps
    · rw [dedupGo_skip _ _ _ h]
      rcases List.mem_cons.mp hq with h1 | h1
      · exact ⟨last, by simp, by rw [h1, abs_sub_comm]; exact h⟩
      · exact ih last q h1
    · rw [dedupGo_keep _ _ _ h]
      rcases List.mem_cons.mp hq with h1 | h1
      · refine ⟨q2, by simp, by rw [h1]; simpa using eps_pos⟩
      · obtain ⟨r, hr, hre⟩ := ih q2 q h1
        exact ⟨r, List.mem_cons_of_mem _ hr, hre⟩

theorem dedup_pairwise (l : List ℚ) (hl : l.Pairwise (· ≤ ·)) :
    (dedup l).Pairwise (fun x y => x + eps ≤ y) := by
  cases l with
  | nil => exact List.Pairwise.nil
  | cons q rest =>
    obtain ⟨hp, hb⟩ := dedupGo_strong q rest (List.pairwise_cons.mp hl).2
      (List.pairwise_cons.mp hl).1
    exact List.Pairwise.cons (fun r hr => hb r hr) hp

theorem dedup_subset (l : List ℚ) : ∀ x ∈ dedup l, x ∈ l := by
  cases l with
  | nil => simp [dedup]
  | cons q rest =>
    intro x hx
    rcases List.mem_cons.mp hx with h1 | h1
    · simp [h1]
    · exact List.mem_cons_of_mem _ (dedupGo_subset q rest x h1)

theorem dedup_cover (l : List ℚ) :
    ∀ q ∈ l, ∃ r ∈ dedup l, |q - r| < eps := by
  cases l with
  | nil => simp
  | cons q2 rest =>
    intro q hq
    rcases List.mem_cons.mp hq with h1 | h1
    · exact ⟨q2, by simp [dedup], by rw [h1]; simpa using eps_pos⟩
    · exact dedupGo_cover q2 rest q h1

theorem doubled_perm (l : List ℚ) : (doubled l).Perm (l ++ l) := by
  induction l with
  | nil => simp [doubled]
  | cons q t ih =>
    have h1 : (q :: (t ++ t)).Perm (t ++ q :: t) := List.perm_middle.symm
    have h2 : (doubled (q :: t)).Perm (q :: q :: (t ++ t)) := (ih.cons q).cons q
    have h3 : (q :: q :: (t ++ t)).Perm (q :: (t ++ q :: t)) := h1.cons q
    have h4 : (q :: t) ++ (q :: t) = q :: (t ++ q :: t) := by simp
    rw [h4]
    exact h2.trans h3

theorem mem_doubled (l : List ℚ) (x : ℚ) : x ∈ doubled l ↔ x ∈ l := by
  induction l with
  | nil => simp [doubled]
  | cons q t ih => simp [doubled, ih]

theorem doubled_sorted (l : List ℚ) (h : l.Pairwise (· ≤ ·)) :
    (doubled l).Pairwise (· ≤ ·) := by
  induction l with
  | nil => exact List.Pairwise.nil
  | cons q t ih =>
    obtain ⟨hb, hp⟩ := List.pairwise_cons.mp h
    have ht := ih hp
    refine List.Pairwise.cons ?_ (List.Pairwise.cons ?_ ht)
    · intro y hy
      rcases List.mem_cons.mp hy with h1 | h1
      · rw [h1]
      · exact hb y ((mem_doubled t y).mp h1)
    · intro y hy
      exact hb y ((mem_doubled t y).mp hy)

theorem dedupGo_doubled (last : ℚ) (l : List ℚ)
    (hsep : l.Pairwise (fun x y => x + eps ≤ y))
    (hlast : ∀ q ∈ l, last + eps ≤ q) :
    dedupGo last (doubled l) = l := by
  induction l generalizing last with
  | nil => rfl
  | cons q t ih =>
    obtain ⟨hb, hp⟩ := List.pairwise_cons.mp hsep
    have hq := hlast q (by simp)
    have h1 : ¬ |last - q| < eps := by
      rw [abs_sub_comm, abs_of_nonneg (by have := eps_pos; linarith)]
      linarith
    have h2 : |q - q| < eps := by simpa using eps_pos
    calc dedupGo last (doubled (q :: t)) = dedupGo last (q :: q :: doubled t) := rfl
      _ = q :: dedupGo q (q :: doubled t) := dedupGo_keep _ _ _ h1
      _ = q :: dedupGo q (doubled t) := by rw [dedupGo_skip _ _ _ h2]
      _ = q :: t := by rw [ih q hp hb]

theorem dedup_doubled (l : List ℚ) (hsep : l.Pairwise (fun x y => x + eps ≤ y)) :
    dedup (doubled l) = l := by
  cases l with
  | nil => rfl
  | cons q t =>
    obtain ⟨hb, hp⟩ := List.pairwise_cons.mp hsep
    have h2 : |q - q| < eps := by simpa using eps_pos
    calc dedup (doubled (q :: t)) = q :: dedupGo q (q :: doubled t) := rfl
      _ = q :: dedupGo q (doubled t) := by rw [dedupGo_skip _ _ _ h2]
      _ = q :: t := by rw [dedupGo_doubled q t hp hb]

theorem getD_pairwise {r : ℚ → ℚ → Prop} (ps : List ℚ) (h : ps.Pairwise r)
    (i j : ℕ) (hij : i < j) (hj : j < ps.length) :
    r (ps.getD i 0) (ps.getD j 0) := by
  have hi : i < ps.length := lt_trans hij hj
  rw [List.getD_eq_getElem?_getD, List.getD_eq_getElem?_getD,
    List.getElem?_eq_getElem hi, List.getElem?_eq_getElem hj]
  exact List.pairwise_iff_getElem.mp h i j hi hj hij

theorem list_getElem?_getD {α : Type} (l : List α) (i : ℕ) (d : α) (hi : i < l.length) :
    l[i]? = some (l.getD i d) := by
  rw [List.getD_eq_getElem?_getD, List.getElem?_eq_getElem hi]
  rfl

theorem getD_mem {α : Type} (l : List α) (i : ℕ) (d : α) (h : i < l.length) :
    l.getD i d ∈ l := by
  rw [List.getD_eq_getElem?_getD, List.getElem?_eq_getElem h]
  exact List.getElem_mem h

theorem mem_le_last (ps : List ℚ) (hps : ps.Pairwise (· < ·)) (q : ℚ) (hq : q ∈ ps) :
    q ≤ ps.getD (ps.length - 1) 0 := by
  obtain ⟨i, hi, hie⟩ := List.getElem_of_mem hq
  have hq2 : q = ps.getD i 0 := by
    rw [List.getD_eq_getElem?_getD, List.getElem?_eq_getElem hi, ← hie]
    rfl
  rcases Nat.lt_or_ge i (ps.length - 1) with h | h
  · rw [hq2]
    exact le_of_lt (getD_pairwise ps hps i (ps.length - 1) h (by omega))
  · have : i = ps.length - 1 := by omega
    rw [hq2, this]

theorem zip_tail_length (ps : List ℚ) : (ps.zip ps.tail).length = ps.length - 1 := by
  simp [List.length_zip, List.length_tail]

theorem zip_tail_getElem (ps : List ℚ) (i : ℕ) (hi : i < (ps.zip ps.tail).length) :
    (ps.zip ps.tail)[i] = (ps.getD i 0, ps.getD (i + 1) 0) := by
  have hlen := zip_tail_length ps
  have h1 : i < ps.length := by omega
  have h2 : i < ps.tail.length := by simp [List.length_tail]; omega
  rw [List.getElem_zip]
  have e1 : ps.getD i 0 = ps[i] := by
    rw [List.getD_eq_getElem?_getD, List.getElem?_eq_getElem h1]
    rfl
  have e2 : ps.getD (i + 1) 0 = ps.tail[i] := by
    rw [List.getD_eq_getElem?_getD,
      List.getElem?_eq_getElem (show i + 1 < ps.length by omega), List.getElem_tail]
    rfl
  rw [e1, e2]

theorem zip_tail_mem (ps : List ℚ) (pq : ℚ × ℚ) (h : pq ∈ ps.zip ps.tail) :
    ∃ i, i + 1 < ps.length ∧ pq = (ps.getD i 0, ps.getD (i + 1) 0) := by
  obtain ⟨i, hi, hie⟩ := List.getElem_of_mem h
  have hlen := zip_tail_length ps
  refine ⟨i, by omega, ?_⟩
  rw [← hie, zip_tail_getElem ps i hi]

theorem midOrder_pair (m : Mesh1D) (hm : m.valid) (i : ℕ) (hi : i < m.orders.length) :
    m.midOrder ((m.points.getD i 0 + m.points.getD (i + 1) 0) / 2) =
      some (m.orders.getD i 0) := by
  obtain ⟨hlen, hsort⟩ := hm
  have hlt : m.points.getD i 0 < m.points.getD (i + 1) 0 :=
    getD_pairwise _ hsort i (i + 1) (by omega) (by omega)
  have h1 : m.points.getD i 0 < (m.points.getD i 0 + m.points.getD (i + 1) 0) / 2 := by
    linarith
  have h2 : (m.points.getD i 0 + m.points.getD (i + 1) 0) / 2 ≤
      m.points.getD (i + 1) 0 := by linarith
  rw [Mesh1D.midOrder, element_at_point_of_mem m ⟨hlen, hsort⟩ _ i hi h1 h2,
    Option.some_bind, list_getElem?_getD _ _ (0 : ℤ) hi]

theorem midOrder_some (m : Mesh1D) (hm : m.valid) (hne : m.orders ≠ []) (x : ℚ)
    (hx : x ≤ m.points.getD (m.points.length - 1) 0) :
    ∃ n, m.element_at_point x = some n ∧ n < m.orders.length ∧
      m.midOrder x = some (m.orders.getD n 0) := by
  obtain ⟨n, h1, h2, _, _⟩ := element_at_point_some m hm x hne hx
  exact ⟨n, h1, h2, by rw [Mesh1D.midOrder, h1, Option.some_bind,
    list_getElem?_getD _ _ (0 : ℤ) h2]⟩

/-- The generic success-and-value lemma for `Mesh1D.union`: when every
midpoint lookup succeeds in both meshes, the union is the deduplicated
sorted merge with the pointwise max orders. -/
theorem union_eq_some_of (m o : Mesh1D)
    (hall : ∀ pq ∈ (dedup ((m.points ++ o.points).insertionSort (· ≤ ·))).zip
        (dedup ((m.points ++ o.points).insertionSort (· ≤ ·))).tail,
      ∃ v1 v2, m.midOrder ((pq.1 + pq.2) / 2) = some v1 ∧
        o.midOrder ((pq.1 + pq.2) / 2) = some v2) :
    m.union o = some ⟨dedup ((m.points ++ o.points).insertionSort (· ≤ ·)),
      ((dedup ((m.points ++ o.points).insertionSort (· ≤ ·))).zip
        (dedup ((m.points ++ o.points).insertionSort (· ≤ ·))).tail).map
        (fun pq => max ((m.midOrder ((pq.1 + pq.2) / 2)).getD 0)
          ((o.midOrder ((pq.1 + pq.2) / 2)).getD 0))⟩ := by
  have hmap : ((dedup ((m.points ++ o.points).insertionSort (· ≤ ·))).zip
      (dedup ((m.points ++ o.points).insertionSort (· ≤ ·))).tail).mapM
        (fun pq => do
          let o1 ← m.midOrder ((pq.1 + pq.2) / 2)
          let o2 ← o.midOrder ((pq.1 + pq.2) / 2)
          pure (max o1 o2)) =
      some (((dedup ((m.points ++ o.points).insertionSort (· ≤ ·))).zip
        (dedup ((m.points ++ o.points).insertionSort (· ≤ ·))).tail).map
        (fun pq => max ((m.midOrder ((pq.1 + pq.2) / 2)).getD 0)
          ((o.midOrder ((pq.1 + pq.2) / 2)).getD 0))) := by
    apply mapM_eq_some_map
    intro pq hpq
    obtain ⟨v1, v2, h1, h2⟩ := hall pq hpq
    rw [h1, h2]
    rfl
  simp only [Mesh1D.union]
  rw [hmap]
  rfl

/-- `union(m, m)` computes `m` back for a valid, `eps`-separated mesh. -/
theorem union_self (m : Mesh1D) (hv : m.valid) (hs : m.sep) :
    m.union m = some m := by
  obtain ⟨hlen, hsort⟩ := hv
  have hsort_le : m.points.Pairwise (· ≤ ·) := hsort.imp le_of_lt
  have hsorted : (m.points ++ m.points).insertionSort (· ≤ ·) = doubled m.points :=
    List.eq_of_perm_of_sorted
      ((List.perm_insertionSort _ _).trans (doubled_perm _).symm)
      (List.sorted_insertionSort _ _) (doubled_sorted _ hsort_le)
  have hded : dedup ((m.points ++ m.points).insertionSort (· ≤ ·)) = m.points := by
    rw [hsorted]; exact dedup_doubled _ hs
  have h := union_eq_some_of m m ?_
  · rw [hded] at h
    rw [h]
    congr 1
    have hlen2 : ((m.points.zip m.points.tail).map
        (fun pq => max ((m.midOrder ((pq.1 + pq.2) / 2)).getD 0)
          ((m.midOrder ((pq.1 + pq.2) / 2)).getD 0))).length = m.orders.length := by
      rw [List.length_map, zip_tail_length]; omega
    have : m = ⟨m.points, m.orders⟩ := rfl
    rw [this]
    simp only [Mesh1D.mk.injEq]
    refine ⟨trivial, List.ext_getElem hlen2 ?_⟩
    intro i hi1 hi2
    have hio : i < m.orders.length := by omega
    have hiz : i < (m.points.zip m.points.tail).length := by
      rw [List.length_map] at hi1; exact hi1
    rw [List.getElem_map, zip_tail_getElem _ _ hiz]
    simp only
    rw [midOrder_pair m ⟨hlen, hsort⟩ i hio]
    simp only [Option.getD_some, max_self]
    rw [List.getD_eq_getElem?_getD, List.getElem?_eq_getElem hio]
    rfl
  · rw [hded]
    intro pq hpq
    obtain ⟨i, hilen, hpqe⟩ := zip_tail_mem _ _ hpq
    have hio : i < m.orders.length := by omega
    refine ⟨m.orders.getD i 0, m.orders.getD i 0, ?_, ?_⟩ <;>
      (rw [hpqe]; exact midOrder_pair m ⟨hlen, hsort⟩ i hio)

/-- `union` is commutative on the nose (as an `Option`-valued function):
the merged point list is the same, and the two midpoint lookups are
combined by `max`, which commutes. -/
theorem union_comm (m o : Mesh1D) : m.union o = o.union m := by
  have hPts : (m.points ++ o.points).insertionSort (· ≤ ·) =
      (o.points ++ m.points).insertionSort (· ≤ ·) :=
    List.eq_of_perm_of_sorted
      ((List.perm_insertionSort _ _).trans
        ((List.perm_append_comm).trans (List.perm_insertionSort _ _).symm))
      (List.sorted_insertionSort _ _) (List.sorted_insertionSort _ _)
  have hF : (fun pq : ℚ × ℚ => do
        let o1 ← m.midOrder ((pq.1 + pq.2) / 2)
        let o2 ← o.midOrder ((pq.1 + pq.2) / 2)
        pure (max o1 o2) : ℚ × ℚ → Option ℤ) =
      (fun pq : ℚ × ℚ => do
        let o1 ← o.midOrder ((pq.1 + pq.2) / 2)
        let o2 ← m.midOrder ((pq.1 + pq.2) / 2)
        pure (max o1 o2)) := by
    funext pq
    rcases h1 : m.midOrder ((pq.1 + pq.2) / 2) with _ | v1 <;>
      rcases h2 : o.midOrder ((pq.1 + pq.2) / 2) with _ | v2 <;>
        simp [h1, h2, Option.bind_eq_bind, max_comm]
  simp only [Mesh1D.union, hPts, hF]

/-- When the two meshes are valid and share their last breakpoint, every
midpoint lookup performed by `union` succeeds. -/
theorem union_defined (m o : Mesh1D) (hm : m.valid) (ho : o.valid)
    (hmne : m.orders ≠ []) (hone : o.orders ≠ [])
    (hlast : m.points.getD (m.points.length - 1) 0 =
      o.points.getD (o.points.length - 1) 0) :
    ∀ pq ∈ (dedup ((m.points ++ o.points).insertionSort (· ≤ ·))).zip
        (dedup ((m.points ++ o.points).insertionSort (· ≤ ·))).tail,
      ∃ v1 v2, m.midOrder ((pq.1 + pq.2) / 2) = some v1 ∧
        o.midOrder ((pq.1 + pq.2) / 2) = some v2 := by
  set pts := dedup ((m.points ++ o.points).insertionSort (· ≤ ·)) with hpts
  intro pq hpq
  obtain ⟨i, hilen, hpqe⟩ := zip_tail_mem _ _ hpq
  have hsorted : ((m.points ++ o.points).insertionSort (· ≤ ·)).Pairwise (· ≤ ·) :=
    List.sorted_insertionSort _ _
  have hsep : pts.Pairwise (fun x y => x + eps ≤ y) := by
    rw [hpts]; exact dedup_pairwise _ hsorted
  have hlt : pts.getD i 0 + eps ≤ pts.getD (i + 1) 0 :=
    getD_pairwise _ hsep i (i + 1) (by omega) (by omega)
  have hmem2 : pts.getD (i + 1) 0 ∈ pts := getD_mem _ _ _ (by omega)
  have hmem2b : pts.getD (i + 1) 0 ∈ m.points ++ o.points := by
    have h1 := dedup_subset _ _ (hpts ▸ hmem2)
    exact ((List.perm_insertionSort _ _).mem_iff).mp h1
  have hle : pts.getD (i + 1) 0 ≤ m.points.getD (m.points.length - 1) 0 := by
    rcases List.mem_append.mp hmem2b with h | h
    · exact mem_le_last _ hm.2 _ h
    · rw [hlast]; exact mem_le_last _ ho.2 _ h
  have heps := eps_pos
  have hmid_m : (pts.getD i 0 + pts.getD (i + 1) 0) / 2 ≤
      m.points.getD (m.points.length - 1) 0 := by linarith
  have hmid_o : (pts.getD i 0 + pts.getD (i + 1) 0) / 2 ≤
      o.points.getD (o.points.length - 1) 0 := by rw [← hlast]; exact hmid_m
  obtain ⟨n1, _, _, h1⟩ := midOrder_some m hm hmne _ hmid_m
  obtain ⟨n2, _, _, h2⟩ := midOrder_some o ho hone _ hmid_o
  rw [hpqe]
  exact ⟨_, _, h1, h2⟩

/-- Counterexample to C7's unrestricted idempotence: a mesh whose middle
breakpoint sits within `1e-12` of its left end is collapsed by the
union's dedup pass, so `m.union(m)` is not equal to `m`. -/
theorem claim7_counterexample :
    Mesh1D.union ⟨[0, 1/2000000000000, 1], [3, 7]⟩
        ⟨[0, 1/2000000000000, 1], [3, 7]⟩ = some ⟨[0, 1], [7]⟩ ∧
    Mesh1D.eq ⟨[0, 1], [7]⟩ ⟨[0, 1/2000000000000, 1], [3, 7]⟩ = false := by
  constructor
  · norm_num [Mesh1D.union, Mesh1D.midOrder, Mesh1D.element_at_point,
      Mesh1D.iter_elems, elemsOf, scanElems, dedup, dedupGo, eps,
      List.insertionSort, List.orderedInsert, bind, Option.bind,
      List.mapM, List.mapM.loop, Option.map, abs_lt]
  · rw [Bool.eq_false_iff]
    intro h
    exact absurd ((meshEq_iff _ _).mp h).1 (by decide)

/-- Claim C7 (amended): union is idempotent up to mesh equality for
valid meshes whose breakpoints are pairwise at least `1e-12` apart, and
commutative (even on the nose) — in particular, for valid meshes covering
the same interval both orders of union succeed and agree. -/
theorem claim7_union_algebra :
    (∀ m : Mesh1D, m.valid → m.sep →
      ∃ u, m.union m = some u ∧ Mesh1D.eq u m = true) ∧
    (∀ a b : Mesh1D, a.union b = b.union a) ∧
    (∀ a b : Mesh1D, a.valid → b.valid → a.orders ≠ [] → b.orders ≠ [] →
      a.points.getD 0 0 = b.points.getD 0 0 →
      a.points.getD (a.points.length - 1) 0 = b.points.getD (b.points.length - 1) 0 →
      ∃ u v, a.union b = some u ∧ b.union a = some v ∧ Mesh1D.eq u v = true) := by
  refine ⟨?_, union_comm, ?_⟩
  · intro m hv hs
    exact ⟨m, union_self m hv hs, meshEq_refl m⟩
  · intro a b hva hvb hna hnb _ hlast
    have hu : a.union b = some _ :=
      union_eq_some_of a b (union_defined a b hva hvb hna hnb hlast)
    exact ⟨_, _, hu, by rw [← union_comm]; exact hu, meshEq_refl _⟩

/-- Witness for C7 on the meshes `Mesh1D((0,1),(1))` and
`Mesh1D((0,1),(2))`. -/
theorem claim7_union_algebra_witness :
    (∃ u, Mesh1D.union ⟨[0, 1], [1]⟩ ⟨[0, 1], [1]⟩ = some u ∧
      Mesh1D.eq u ⟨[0, 1], [1]⟩ = true) ∧
    Mesh1D.union ⟨[0, 1], [1]⟩ ⟨[0, 1], [2]⟩ =
      Mesh1D.union ⟨[0, 1], [2]⟩ ⟨[0, 1], [1]⟩ ∧
    (∃ u v, Mesh1D.union ⟨[0, 1], [1]⟩ ⟨[0, 1], [2]⟩ = some u ∧
      Mesh1D.union ⟨[0, 1], [2]⟩ ⟨[0, 1], [1]⟩ = some v ∧
      Mesh1D.eq u v = true) := by
  obtain ⟨h1, h2, h3⟩ := claim7_union_algebra
  exact ⟨h1 _ ⟨rfl, by norm_num [List.pairwise_cons]⟩
      (by norm_num [Mesh1D.sep, List.pairwise_cons, eps]),
    h2 _ _,
    h3 _ _ ⟨rfl, by norm_num [List.pairwise_cons]⟩ ⟨rfl, by norm_num [List.pairwise_cons]⟩
      (by simp) (by simp) rfl rfl⟩

/-- Claim C3: `union` merges the breakpoint sequences, removes
duplicates within `1e-12`, sorts them, and gives each sub-interval the
max of the orders of the elements of the two meshes containing its
midpoint; on the spec's example it returns
`Mesh1D((-5,-4,0,3,10),(2,5,5,4))`. -/
theorem claim3_union_merge :
    (∃ u, Mesh1D.union ⟨[-5, -4, 3, 10], [2, 5, 2]⟩ ⟨[-5, 0, 10], [1, 4]⟩ = some u ∧
      u = ⟨[-5, -4, 0, 3, 10], [2, 5, 5, 4]⟩ ∧
      Mesh1D.eq u ⟨[-5, -4, 0, 3, 10], [2, 5, 5, 4]⟩ = true) ∧
    (∀ m o : Mesh1D, m.valid → o.valid → m.orders ≠ [] → o.orders ≠ [] →
      m.points.getD (m.points.length - 1) 0 = o.points.getD (o.points.length - 1) 0 →
      ∃ u, m.union o = some u ∧
        u.points = dedup ((m.points ++ o.points).insertionSort (· ≤ ·)) ∧
        u.points.Pairwise (fun x y => x + eps ≤ y) ∧
        (∀ q ∈ u.points, q ∈ m.points ∨ q ∈ o.points) ∧
        (∀ q, (q ∈ m.points ∨ q ∈ o.points) → ∃ r ∈ u.points, |q - r| < eps) ∧
        u.points.length = u.orders.length + 1 ∧
        (∀ i ja jb, i + 1 < u.points.length →
          ja < m.orders.length → jb < o.orders.length →
          m.points.getD ja 0 < (u.points.getD i 0 + u.points.getD (i + 1) 0) / 2 →
          (u.points.getD i 0 + u.points.getD (i + 1) 0) / 2 ≤ m.points.getD (ja + 1) 0 →
          o.points.getD jb 0 < (u.points.getD i 0 + u.points.getD (i + 1) 0) / 2 →
          (u.points.getD i 0 + u.points.getD (i + 1) 0) / 2 ≤ o.points.getD (jb + 1) 0 →
          u.orders.getD i 0 = max (m.orders.getD ja 0) (o.orders.getD jb 0))) := by
  constructor
  · refine ⟨⟨[-5, -4, 0, 3, 10], [2, 5, 5, 4]⟩, ?_, rfl, meshEq_refl _⟩
    norm_num [Mesh1D.union, Mesh1D.midOrder, Mesh1D.element_at_point,
      Mesh1D.iter_elems, elemsOf, scanElems, dedup, dedupGo, eps,
      List.insertionSort, List.orderedInsert, bind, Option.bind,
      List.mapM, List.mapM.loop, Option.map]
  · intro m o hm ho hmne hone hlast
    have hu := union_eq_some_of m o (union_defined m o hm ho hmne hone hlast)
    set pts := dedup ((m.points ++ o.points).insertionSort (· ≤ ·)) with hpts
    refine ⟨_, hu, rfl, ?_, ?_, ?_, ?_, ?_⟩
    · rw [hpts]
      exact dedup_pairwise _ (List.sorted_insertionSort _ _)
    · intro q hq
      have h1 := dedup_subset _ _ (hpts ▸ hq)
      exact List.mem_append.mp (((List.perm_insertionSort _ _).mem_iff).mp h1)
    · intro q hq
      have hq2 : q ∈ (m.points ++ o.points).insertionSort (· ≤ ·) :=
        ((List.perm_insertionSort _ _).mem_iff).mpr (List.mem_append.mpr hq)
      exact dedup_cover _ q hq2
    · -- length bookkeeping: pts is nonempty, orders has one fewer entry
      have hlen1 : 0 < ((m.points ++ o.points).insertionSort (· ≤ ·)).length := by
        rw [List.length_insertionSort, List.length_append]
        have := hm.1
        omega
      have hlen2 : 0 < pts.length := by
        rw [hpts]
        rcases hL : (m.points ++ o.points).insertionSort (· ≤ ·) with _ | ⟨q, t⟩
        · rw [hL] at hlen1; simp at hlen1
        · simp [dedup]
      dsimp only
      simp only [List.length_map, zip_tail_length]
      omega
    · intro i ja jb hi hja hjb hm1 hm2 ho1 ho2
      dsimp only at hi hm1 hm2 ho1 ho2 ⊢
      have hiz : i < (pts.zip pts.tail).length := by rw [zip_tail_length]; omega
      have hordD : (((pts.zip pts.tail).map
          (fun pq => max ((m.midOrder ((pq.1 + pq.2) / 2)).getD 0)
            ((o.midOrder ((pq.1 + pq.2) / 2)).getD 0))).getD i 0) =
          max ((m.midOrder ((pts.getD i 0 + pts.getD (i + 1) 0) / 2)).getD 0)
            ((o.midOrder ((pts.getD i 0 + pts.getD (i + 1) 0) / 2)).getD 0) := by
        rw [List.getD_eq_getElem?_getD,
          List.getElem?_eq_getElem (by rw [List.length_map]; exact hiz)]
        rw [List.getElem_map, zip_tail_getElem _ _ hiz]
        rfl
      have hmm : m.midOrder ((pts.getD i 0 + pts.getD (i + 1) 0) / 2) =
          some (m.orders.getD ja 0) := by
        rw [Mesh1D.midOrder, element_at_point_of_mem m hm _ ja hja hm1 hm2,
          Option.some_bind, list_getElem?_getD _ _ (0 : ℤ) hja]
      have hoo : o.midOrder ((pts.getD i 0 + pts.getD (i + 1) 0) / 2) =
          some (o.orders.getD jb 0) := by
        rw [Mesh1D.midOrder, element_at_point_of_mem o ho _ jb hjb ho1 ho2,
          Option.some_bind, list_getElem?_getD _ _ (0 : ℤ) hjb]
      rw [hordD, hmm, hoo]
      rfl

/-- Witness for C3's general part on `Mesh1D((0,1),(1))` and
`Mesh1D((0,1),(2))`. -/
theorem claim3_union_merge_witness :
    ∃ u, Mesh1D.union ⟨[0, 1], [1]⟩ ⟨[0, 1], [2]⟩ = some u ∧
      u.points = dedup ((([0, 1] : List ℚ) ++ [0, 1]).insertionSort (· ≤ ·)) ∧
      u.points.Pairwise (fun x y => x + eps ≤ y) ∧
      (∀ q ∈ u.points, q ∈ ([0, 1] : List ℚ) ∨ q ∈ ([0, 1] : List ℚ)) ∧
      (∀ q, (q ∈ ([0, 1] : List ℚ) ∨ q ∈ ([0, 1] : List ℚ)) →
        ∃ r ∈ u.points, |q - r| < eps) ∧
      u.points.length = u.orders.length + 1 ∧
      (∀ i ja jb, i + 1 < u.points.length → ja < 1 → jb < 1 →
        List.getD [0, 1] ja 0 < (u.points.getD i 0 + u.points.getD (i + 1) 0) / 2 →
        (u.points.getD i 0 + u.points.getD (i + 1) 0) / 2 ≤ List.getD [0, 1] (ja + 1) 0 →
        List.getD [0, 1] jb 0 < (u.points.getD i 0 + u.points.getD (i + 1) 0) / 2 →
        (u.points.getD i 0 + u.points.getD (i + 1) 0) / 2 ≤ List.getD [0, 1] (jb + 1) 0 →
        u.orders.getD i 0 = max (List.getD [1] ja 0) (List.getD [2] jb 0)) :=
  claim3_union_merge.2 ⟨[0, 1], [1]⟩ ⟨[0, 1], [2]⟩
    ⟨rfl, by norm_num [List.pairwise_cons]⟩ ⟨rfl, by norm_num [List.pairwise_cons]⟩
    (by simp) (by simp) rfl

theorem elemsOf_getElem (ps : List ℚ) (os : List ℤ) (i : ℕ)
    (h : i < (elemsOf ps os).length) (h1 : i + 1 < ps.length) (h2 : i < os.length) :
    (elemsOf ps os)[i] = (ps.getD i 0, ps.getD (i + 1) 0, os.getD i 0) := by
  have h3 := elemsOf_getElem? ps os i h1 h2
  rw [List.getElem?_eq_getElem h] at h3
  exact Option.some_injective _ h3

theorem elems_slice_fst (ps : List ℚ) (os : List ℤ) (hlen : ps.length = os.length + 1)
    (d t : ℕ) (ht : d + t ≤ os.length) :
    (((elemsOf ps os).drop d).take t).map (fun e => e.1) = (ps.drop d).take t := by
  have hElen : (elemsOf ps os).length = os.length := by
    rw [elemsOf_length]; omega
  apply List.ext_getElem
  · simp only [List.length_map, List.length_take, List.length_drop, hElen]
    omega
  · intro j h1 h2
    have hjt : j < t := by
      simp only [List.length_map, List.length_take, List.length_drop, hElen] at h1
      omega
    have hdj : d + j < os.length := by omega
    rw [List.getElem_map, List.getElem_take, List.getElem_drop,
      elemsOf_getElem ps os (d + j) (by omega) (by omega) hdj,
      List.getElem_take, List.getElem_drop]
    simp only
    rw [List.getD_eq_getElem?_getD,
      List.getElem?_eq_getElem (show d + j < ps.length by omega)]
    rfl

theorem elems_slice_ord (ps : List ℚ) (os : List ℤ) (hlen : ps.length = os.length + 1)
    (d t : ℕ) (ht : d + t ≤ os.length) :
    (((elemsOf ps os).drop d).take t).map (fun e => e.2.2) = (os.drop d).take t := by
  have hElen : (elemsOf ps os).length = os.length := by
    rw [elemsOf_length]; omega
  apply List.ext_getElem
  · simp only [List.length_map, List.length_take, List.length_drop, hElen]
  · intro j h1 h2
    have hjt : j < t := by
      simp only [List.length_map, List.length_take, List.length_drop, hElen] at h1
      omega
    have hdj : d + j < os.length := by omega
    rw [List.getElem_map, List.getElem_take, List.getElem_drop,
      elemsOf_getElem ps os (d + j) (by omega) (by omega) hdj,
      List.getElem_take, List.getElem_drop]
    simp only
    rw [List.getD_eq_getElem?_getD,
      List.getElem?_eq_getElem (show d + j < os.length by omega)]
    rfl

theorem points_len2_ext (m : Mesh1D) (h : m.points.length = 2) :
    m.points = [m.points.getD 0 0, m.points.getD 1 0] := by
  apply List.ext_getElem (by simp [h])
  intro i h1 h2
  have hi2 : i < 2 := by omega
  interval_cases i
  · simp only [List.getElem_cons_zero]
    rw [List.getD_eq_getElem?_getD, List.getElem?_eq_getElem (by omega)]
    rfl
  · simp only [List.getElem_cons_succ, List.getElem_cons_zero]
    rw [List.getD_eq_getElem?_getD, List.getElem?_eq_getElem (by omega)]
    rfl

theorem orders_len1_ext (m : Mesh1D) (h : m.orders.length = 1) :
    m.orders = [m.orders.getD 0 0] := by
  apply List.ext_getElem (by simp [h])
  intro i h1 h2
  have hi1 : i < 1 := by omega
  interval_cases i
  simp only [List.getElem_cons_zero]
  rw [List.getD_eq_getElem?_getD, List.getElem?_eq_getElem (by omega)]
  rfl

theorem take_one_eq (ps : List ℚ) (h : 0 < ps.length) :
    ps.take 1 = [ps.getD 0 0] := by
  rcases ps with _ | ⟨x, t⟩
  · simp at h
  · rfl

theorem take_succ_getD (ps : List ℚ) (n : ℕ) (h : n < ps.length) :
    ps.take (n + 1) = ps.take n ++ [ps.getD n 0] := by
  rw [List.take_succ, list_getElem?_getD ps n 0 h]
  rfl

theorem take_one_eq_int (os : List ℤ) (h : 0 < os.length) :
    os.take 1 = [os.getD 0 0] := by
  rcases os with _ | ⟨x, t⟩
  · simp at h
  · rfl

theorem take_succ_getD_int (os : List ℤ) (n : ℕ) (h : n < os.length) :
    os.take (n + 1) = os.take n ++ [os.getD n 0] := by
  rw [List.take_succ, list_getElem?_getD os n 0 h]
  rfl

theorem restrict_full (m : Mesh1D) (hv : m.valid) (hs : m.sep) (hne : m.orders ≠ []) :
    m.restrict_to_interval (m.points.getD 0 0)
      (m.points.getD (m.points.length - 1) 0) = some m := by
  obtain ⟨hlen, hsort⟩ := hv
  have heps := eps_pos
  have hE : 0 < m.orders.length := List.length_pos.mpr hne
  have hPl1 : m.points.length - 1 = m.orders.length := by omega
  rw [hPl1]
  set E := m.orders.length with hEdef
  have hAB : m.points.getD 0 0 < m.points.getD E 0 :=
    getD_pairwise _ hsort 0 E hE (by omega)
  have heap1 : m.element_at_point (m.points.getD 0 0) = some 0 := by
    rw [Mesh1D.element_at_point, scanElems_eq_some_iff]
    refine ⟨by rw [iterElems_length m hlen]; omega, ?_,
      fun k hk => absurd hk (by omega)⟩
    rw [iterElems_getD m hlen 0 hE]
    exact not_lt.mpr (le_of_lt (getD_pairwise _ hsort 0 1 (by omega) (by omega)))
  have heap2 : m.element_at_point (m.points.getD E 0) = some (E - 1) := by
    apply element_at_point_of_mem m ⟨hlen, hsort⟩ _ (E - 1) (by omega)
    · exact getD_pairwise _ hsort (E - 1) E (by omega) (by omega)
    · rw [show E - 1 + 1 = E from by omega]
  have hgid1 : m.get_element_by_id 0 =
      some (m.points.getD 0 0, m.points.getD 1 0, m.orders.getD 0 0) := by
    rw [Mesh1D.get_element_by_id, Mesh1D.iter_elems,
      elemsOf_getElem? _ _ 0 (by omega) hE]
  have hgid2 : m.get_element_by_id (E - 1) =
      some (m.points.getD (E - 1) 0, m.points.getD E 0, m.orders.getD (E - 1) 0) := by
    rw [Mesh1D.get_element_by_id, Mesh1D.iter_elems]
    have h := elemsOf_getElem? m.points m.orders (E - 1) (by omega) (by omega)
    rw [show E - 1 + 1 = E from by omega] at h
    exact h
  have hc1 : ¬ |m.points.getD 1 0 - m.points.getD 0 0| < eps := by
    have h := getD_pairwise _ hs 0 1 (by omega) (by omega)
    rw [abs_of_nonneg (by linarith)]
    linarith
  have hc2 : |m.points.getD 0 0 - m.points.getD 0 0| < eps := by simpa using eps_pos
  have hc5 : |m.points.getD E 0 - m.points.getD E 0| < eps := by simpa using eps_pos
  rcases Nat.lt_or_ge 1 E with hE2 | hE1
  · -- E >= 2
    have hc3 : ¬ |m.points.getD (E - 1) 0 - m.points.getD 0 0| < eps := by
      have h := getD_pairwise _ hs 0 (E - 1) (by omega) (by omega)
      rw [abs_of_nonneg (by linarith)]
      linarith
    have hc4 : ¬ m.points.getD (E - 1) 0 < m.points.getD 0 0 := by
      push_neg
      exact le_of_lt (getD_pairwise _ hsort 0 (E - 1) (by omega) (by omega))
    have hmid : (List.map (fun x => x.1)
        (List.take (E - 1 - (0 + 1)) (List.drop (0 + 1) m.iter_elems))) =
        (m.points.drop 1).take (E - 2) := by
      rw [Mesh1D.iter_elems, show (0 : Nat) + 1 = 1 from rfl,
        show E - 1 - 1 = E - 2 from by omega]
      exact elems_slice_fst m.points m.orders hlen 1 (E - 2) (by omega)
    have hmido : (List.map (fun x => x.2.2)
        (List.take (E - 1 - (0 + 1)) (List.drop (0 + 1) m.iter_elems))) =
        (m.orders.drop 1).take (E - 2) := by
      rw [Mesh1D.iter_elems, show (0 : Nat) + 1 = 1 from rfl,
        show E - 1 - 1 = E - 2 from by omega]
      exact elems_slice_ord m.points m.orders hlen 1 (E - 2) (by omega)
    have hpts2 : [m.points.getD 0 0] ++ (m.points.drop 1).take (E - 2) =
        m.points.take (E - 1) := by
      rw [← take_one_eq m.points (by omega), ← List.take_add,
        show 1 + (E - 2) = E - 1 from by omega]
    have hord2 : [m.orders.getD 0 0] ++ (m.orders.drop 1).take (E - 2) =
        m.orders.take (E - 1) := by
      rw [← take_one_eq_int m.orders (by omega), ← List.take_add,
        show 1 + (E - 2) = E - 1 from by omega]
    have hlast3 : (m.points.take (E - 1)).getLast? = some (m.points.getD (E - 2) 0) := by
      rw [List.getLast?_eq_getElem?]
      have hl : (m.points.take (E - 1)).length = E - 1 := by
        rw [List.length_take]; omega
      rw [hl, show E - 1 - 1 = E - 2 from by omega,
        List.getElem?_eq_getElem (show E - 2 < (m.points.take (E - 1)).length by
          rw [hl]; omega),
        List.getElem_take, List.getD_eq_getElem?_getD,
        List.getElem?_eq_getElem (show E - 2 < m.points.length by omega)]
      rfl
    have hcondL : ¬ |m.points.getD (E - 2) 0 - m.points.getD (E - 1) 0| < eps := by
      have h := getD_pairwise _ hs (E - 2) (E - 1) (by omega) (by omega)
      rw [abs_of_nonpos (by linarith)]
      linarith
    have hfin1 : m.points.take (E - 1) ++ [m.points.getD (E - 1) 0] = m.points.take E := by
      rw [← take_succ_getD m.points (E - 1) (by omega),
        show E - 1 + 1 = E from by omega]
    have hfin2 : m.points.take E ++ [m.points.getD E 0] = m.points := by
      rw [← take_succ_getD m.points E (by omega), show E + 1 = m.points.length from by omega,
        List.take_length]
    have hfin3 : m.orders.take (E - 1) ++ [m.orders.getD (E - 1) 0] = m.orders := by
      rw [← take_succ_getD_int m.orders (E - 1) (by omega),
        show E - 1 + 1 = E from by omega, hEdef, List.take_length]
    simp only [Mesh1D.restrict_to_interval, Option.bind_eq_bind, heap1, heap2, hgid1,
      hgid2, Option.some_bind, if_pos hAB, if_neg hc1, if_pos hc2, if_pos hc5,
      if_neg hc3, if_neg hc4, hmid, hmido, hpts2, hord2, hlast3, hcondL,
      hfin1, hfin2, hfin3]
    simp only [decide_False, Bool.not_false, if_true, hfin2]
    rfl
  · -- E = 1
    have hE1e : E = 1 := by omega
    have hc3 : |m.points.getD (E - 1) 0 - m.points.getD 0 0| < eps := by
      rw [show E - 1 = 0 from by omega]
      exact hc2
    have hcl : |m.points.getD 0 0 - m.points.getD (E - 1) 0| < eps := by
      rw [show E - 1 = 0 from by omega]
      exact hc2
    have hmid0 : E - 1 - (0 + 1) = 0 := by omega
    simp only [Mesh1D.restrict_to_interval, Option.bind_eq_bind, heap1, heap2, hgid1,
      hgid2, Option.some_bind, if_pos hAB, if_neg hc1, if_pos hc2, if_pos hc5,
      if_pos hc3, hmid0, List.take_zero, List.map_nil, List.append_nil,
      List.getLast?_singleton, hcl, decide_True, Bool.not_true, Bool.false_eq_true,
      if_false]
    have hp2 : m.points = [m.points.getD 0 0, m.points.getD 1 0] :=
      points_len2_ext m (by omega)
    have ho1 : m.orders = [m.orders.getD 0 0] := orders_len1_ext m (by omega)
    rw [show m.points.getD E 0 = m.points.getD 1 0 from by rw [hE1e]]
    simp only [List.singleton_append]
    rw [← hp2, ← ho1]
    rfl


theorem getD_zero_append (X Y : List ℚ) (hX : X ≠ []) :
    (X ++ Y).getD 0 0 = X.getD 0 0 := by
  cases X with
  | nil => exact absurd rfl hX
  | cons x t => rfl

theorem head_restrict_shape (c : Prop) [Decidable c] (X Y : List ℚ) (a2v : ℚ)
    (hX : X ≠ []) :
    ((if c then X ++ [a2v] else X) ++ Y).getD 0 0 = X.getD 0 0 := by
  split
  · rw [getD_zero_append _ _ (by simp [hX]), getD_zero_append _ _ hX]
  · exact getD_zero_append X Y hX

theorem restrict_defined (m : Mesh1D) (hv : m.valid) (hne : m.orders ≠ [])
    (A B : ℚ) (hA : m.points.getD 0 0 ≤ A) (hAB : A < B)
    (hB : B ≤ m.points.getD (m.points.length - 1) 0) :
    ∃ r, m.restrict_to_interval A B = some r ∧
      |r.points.getD 0 0 - A| < eps ∧
      ∃ bv, r.points.getLast? = some bv ∧ |bv - B| < eps := by
  obtain ⟨hlen, hsort⟩ := hv
  have heps := eps_pos
  have hE : 0 < m.orders.length := List.length_pos.mpr hne
  obtain ⟨n1, heapA, hn1E, hA1, hk1⟩ :=
    element_at_point_some m ⟨hlen, hsort⟩ A hne (le_trans (le_of_lt hAB) hB)
  obtain ⟨n2, heapB, hn2E, hB1, hk2⟩ := element_at_point_some m ⟨hlen, hsort⟩ B hne hB
  have hgidA : m.get_element_by_id n1 =
      some (m.points.getD n1 0, m.points.getD (n1 + 1) 0, m.orders.getD n1 0) := by
    rw [Mesh1D.get_element_by_id, Mesh1D.iter_elems,
      elemsOf_getElem? _ _ n1 (by omega) hn1E]
  have hgidB : m.get_element_by_id n2 =
      some (m.points.getD n2 0, m.points.getD (n2 + 1) 0, m.orders.getD n2 0) := by
    rw [Mesh1D.get_element_by_id, Mesh1D.iter_elems,
      elemsOf_getElem? _ _ n2 (by omega) hn2E]
  have ha1leA : m.points.getD n1 0 ≤ A := by
    rcases Nat.eq_zero_or_pos n1 with h0 | h0
    · rw [h0]; exact hA
    · refine le_of_lt ?_
      have h := hk1 (n1 - 1) (by omega)
      rw [show n1 - 1 + 1 = n1 from by omega] at h
      exact h
  have hn12 : n1 ≤ n2 := by
    by_contra hcon
    push_neg at hcon
    have := hk1 n2 hcon
    linarith
  -- facts for the middle slice (used when n1 + 1 < n2)
  have hmideq : (List.take (n2 - (n1 + 1)) (List.drop (n1 + 1) m.iter_elems)).map
      (fun x => x.1) = (m.points.drop (n1 + 1)).take (n2 - (n1 + 1)) := by
    rw [Mesh1D.iter_elems]
    exact elems_slice_fst m.points m.orders hlen (n1 + 1) (n2 - (n1 + 1)) (by omega)
  have hmidne : n1 + 1 < n2 → (m.points.drop (n1 + 1)).take (n2 - (n1 + 1)) ≠ [] := by
    intro hmn hcon
    have := congrArg List.length hcon
    simp only [List.length_take, List.length_drop, List.length_nil] at this
    omega
  have hmidhead : n1 + 1 < n2 →
      ((m.points.drop (n1 + 1)).take (n2 - (n1 + 1))).getD 0 0 =
        m.points.getD (n1 + 1) 0 := by
    intro hmn
    rw [List.getD_eq_getElem?_getD, List.getElem?_eq_getElem (by
      simp only [List.length_take, List.length_drop]
      omega)]
    rw [List.getElem_take, List.getElem_drop, List.getD_eq_getElem?_getD,
      List.getElem?_eq_getElem (show n1 + 1 + 0 < m.points.length by omega)]
  -- the clipped last element start (used when the first element is skipped
  -- and there is no middle element)
  have ha2v : ¬ (n1 + 1 < n2) → |m.points.getD (n1 + 1) 0 - A| < eps →
      |(if |m.points.getD n2 0 - A| < eps then m.points.getD n2 0
        else if m.points.getD n2 0 < A then A else m.points.getD n2 0) - A| < eps := by
    intro hmn hF1
    by_cases h1 : |m.points.getD n2 0 - A| < eps
    · rw [if_pos h1]; exact h1
    · rw [if_neg h1]
      by_cases h2 : m.points.getD n2 0 < A
      · rw [if_pos h2]; simpa using eps_pos
      · exfalso
        push_neg at h2
        rcases (show n2 = n1 ∨ n2 = n1 + 1 from by omega) with he | he
        · have h3 : m.points.getD n2 0 = A := le_antisymm (he ▸ ha1leA) h2
          rw [h3] at h1
          exact h1 (by simpa using eps_pos)
        · rw [he] at h1
          exact h1 hF1
  -- case split on the clipping of the right end
  by_cases hBc : |m.points.getD (n2 + 1) 0 - B| < eps <;>
    [skip;
     have hBc2 : B < m.points.getD (n2 + 1) 0 := by
       rcases lt_or_eq_of_le hB1 with h | h
       · exact h
       · exact absurd (by rw [← h]; simpa using eps_pos) hBc] <;>
  by_cases hF1 : |m.points.getD (n1 + 1) 0 - A| < eps
  · -- right end aligned, first element skipped
    by_cases hmn : n1 + 1 < n2
    · simp only [Mesh1D.restrict_to_interval, Option.bind_eq_bind, heapA, heapB,
        hgidA, hgidB, Option.some_bind, if_pos hAB, if_pos hF1, if_pos hBc,
        List.nil_append, hmideq]
      refine ⟨_, rfl, ?_, m.points.getD (n2 + 1) 0, List.getLast?_concat _, hBc⟩
      rw [head_restrict_shape _ _ _ _ (hmidne hmn), hmidhead hmn]
      exact hF1
    · have hmid0 : n2 - (n1 + 1) = 0 := by omega
      simp only [Mesh1D.restrict_to_interval, Option.bind_eq_bind, heapA, heapB,
        hgidA, hgidB, Option.some_bind, if_pos hAB, if_pos hF1, if_pos hBc,
        List.nil_append, hmid0, List.take_zero, List.map_nil, List.getLast?_nil]
      refine ⟨_, rfl, ?_, m.points.getD (n2 + 1) 0, ?_, hBc⟩
      · exact ha2v hmn hF1
      · exact List.getLast?_concat _
  · -- right end aligned, first element kept (clipped or aligned)
    by_cases h1 : |m.points.getD n1 0 - A| < eps
    · simp only [Mesh1D.restrict_to_interval, Option.bind_eq_bind, heapA, heapB,
        hgidA, hgidB, Option.some_bind, if_pos hAB, if_neg hF1, if_pos h1,
        if_pos hBc, List.singleton_append]
      refine ⟨_, rfl, ?_, m.points.getD (n2 + 1) 0, List.getLast?_concat _, hBc⟩
      rw [head_restrict_shape _ _ _ _ (List.cons_ne_nil _ _)]
      exact h1
    · have h2 : m.points.getD n1 0 < A := by
        rcases lt_or_eq_of_le ha1leA with h | h
        · exact h
        · exact absurd (by rw [h]; simpa using eps_pos) h1
      simp only [Mesh1D.restrict_to_interval, Option.bind_eq_bind, heapA, heapB,
        hgidA, hgidB, Option.some_bind, if_pos hAB, if_neg hF1, if_neg h1,
        if_pos h2, if_pos hBc, List.singleton_append]
      refine ⟨_, rfl, ?_, m.points.getD (n2 + 1) 0, List.getLast?_concat _, hBc⟩
      rw [head_restrict_shape _ _ _ _ (List.cons_ne_nil _ _)]
      simpa using eps_pos
  · -- right end clipped to B, first element skipped
    by_cases hmn : n1 + 1 < n2
    · simp only [Mesh1D.restrict_to_interval, Option.bind_eq_bind, heapA, heapB,
        hgidA, hgidB, Option.some_bind, if_pos hAB, if_pos hF1, if_neg hBc,
        if_pos hBc2, List.nil_append, hmideq]
      refine ⟨_, rfl, ?_, B, List.getLast?_concat _, by simpa using eps_pos⟩
      rw [head_restrict_shape _ _ _ _ (hmidne hmn), hmidhead hmn]
      exact hF1
    · have hmid0 : n2 - (n1 + 1) = 0 := by omega
      simp only [Mesh1D.restrict_to_interval, Option.bind_eq_bind, heapA, heapB,
        hgidA, hgidB, Option.some_bind, if_pos hAB, if_pos hF1, if_neg hBc,
        if_pos hBc2, List.nil_append, hmid0, List.take_zero, List.map_nil,
        List.getLast?_nil]
      refine ⟨_, rfl, ?_, B, ?_, by simpa using eps_pos⟩
      · exact ha2v hmn hF1
      · exact List.getLast?_concat _
  · -- right end clipped to B, first element kept
    by_cases h1 : |m.points.getD n1 0 - A| < eps
    · simp only [Mesh1D.restrict_to_interval, Option.bind_eq_bind, heapA, heapB,
        hgidA, hgidB, Option.some_bind, if_pos hAB, if_neg hF1, if_pos h1,
        if_neg hBc, if_pos hBc2, List.singleton_append]
      refine ⟨_, rfl, ?_, B, List.getLast?_concat _, by simpa using eps_pos⟩
      rw [head_restrict_shape _ _ _ _ (List.cons_ne_nil _ _)]
      exact h1
    · have h2 : m.points.getD n1 0 < A := by
        rcases lt_or_eq_of_le ha1leA with h | h
        · exact h
        · exact absurd (by rw [h]; simpa using eps_pos) h1
      simp only [Mesh1D.restrict_to_interval, Option.bind_eq_bind, heapA, heapB,
        hgidA, hgidB, Option.some_bind, if_pos hAB, if_neg hF1, if_neg h1,
        if_pos h2, if_neg hBc, if_pos hBc2, List.singleton_append]
      refine ⟨_, rfl, ?_, B, List.getLast?_concat _, by simpa using eps_pos⟩
      rw [head_restrict_shape _ _ _ _ (List.cons_ne_nil _ _)]
      simpa using eps_pos

/-- Counterexample to claim C4 as stated ("for every mesh ...
restricting a mesh to its full interval returns a mesh equal to the
original"): the valid mesh `Mesh1D((0, 5e-13, 1), (3, 7))`, whose first
two breakpoints are closer than the `1e-12` tolerance, restricted to its
full interval `[0, 1]` hits the `abs(b - A) < eps` branch on its first
element, drops it, and returns `Mesh1D((5e-13, 1), (7,))`, which is not
equal to the original (the order tuples differ). -/
theorem claim4_counterexample :
    Mesh1D.valid ⟨[0, 1/2000000000000, 1], [3, 7]⟩ ∧
    Mesh1D.restrict_to_interval ⟨[0, 1/2000000000000, 1], [3, 7]⟩ 0 1 =
      some ⟨[1/2000000000000, 1], [7]⟩ ∧
    Mesh1D.eq ⟨[1/2000000000000, 1], [7]⟩ ⟨[0, 1/2000000000000, 1], [3, 7]⟩ = false := by
  refine ⟨⟨rfl, by norm_num [List.pairwise_cons]⟩, ?_, by norm_num [Mesh1D.eq]⟩
  norm_num [Mesh1D.restrict_to_interval, Mesh1D.element_at_point,
    Mesh1D.get_element_by_id, Mesh1D.iter_elems, elemsOf, scanElems, eps,
    bind, Option.bind, abs_lt]

/-- Claim C4 (amended: the full-interval identity additionally requires
the mesh's consecutive breakpoints to be at least `1e-12` apart, the
separation the code's dedup/clip tolerance assumes everywhere — see the
counterexample above): `restrict_to_interval` returns the clipped
sub-mesh: on the spec's example it gives `Mesh1D((-4,3,10),(5,2))`;
restricting a valid, `eps`-separated mesh to its full interval returns
an equal mesh; and for every `A < B` inside the span of a valid mesh the
restriction succeeds and covers exactly `[A, B]` — its first breakpoint
is within `1e-12` of `A` and its last breakpoint within `1e-12` of `B`
(the tolerance treats an already-aligned boundary as exact). -/
theorem claim4_restrict :
    (∃ r, Mesh1D.restrict_to_interval ⟨[-5, -4, 3, 10], [2, 5, 2]⟩ (-4) 10 = some r ∧
      Mesh1D.eq r ⟨[-4, 3, 10], [5, 2]⟩ = true) ∧
    (∀ m : Mesh1D, m.valid → m.sep → m.orders ≠ [] →
      ∃ r, m.restrict_to_interval (m.points.getD 0 0)
        (m.points.getD (m.points.length - 1) 0) = some r ∧ Mesh1D.eq r m = true) ∧
    (∀ m A B, Mesh1D.valid m → m.orders ≠ [] → m.points.getD 0 0 ≤ A → A < B →
      B ≤ m.points.getD (m.points.length - 1) 0 →
      ∃ r, m.restrict_to_interval A B = some r ∧
        |r.points.getD 0 0 - A| < eps ∧
        ∃ bv, r.points.getLast? = some bv ∧ |bv - B| < eps) := by
  refine ⟨?_, ?_, ?_⟩
  · refine ⟨⟨[-4, 3, 10], [5, 2]⟩, ?_, meshEq_refl _⟩
    norm_num [Mesh1D.restrict_to_interval, Mesh1D.element_at_point,
      Mesh1D.get_element_by_id, Mesh1D.iter_elems, elemsOf, scanElems, eps,
      bind, Option.bind]
  · intro m hv hs hne
    exact ⟨m, restrict_full m hv hs hne, meshEq_refl m⟩
  · intro m A B hv hne hA hAB hB
    exact restrict_defined m hv hne A B hA hAB hB

/-- Witness for C4 on `Mesh1D((0,1),(1))`: full-interval restriction and
an interior restriction to `[1/4, 3/4]`. -/
theorem claim4_restrict_witness :
    (∃ r, Mesh1D.restrict_to_interval ⟨[0, 1], [1]⟩ 0 1 = some r ∧
      Mesh1D.eq r ⟨[0, 1], [1]⟩ = true) ∧
    (∃ r, Mesh1D.restrict_to_interval ⟨[0, 1], [1]⟩ (1/4) (3/4) = some r ∧
      |r.points.getD 0 0 - 1/4| < eps ∧
      ∃ bv, r.points.getLast? = some bv ∧ |bv - 3/4| < eps) := by
  obtain ⟨_, h2, h3⟩ := claim4_restrict
  constructor
  · exact h2 ⟨[0, 1], [1]⟩ ⟨rfl, by norm_num [List.pairwise_cons]⟩
      (by norm_num [Mesh1D.sep, List.pairwise_cons, eps]) (by simp)
  · exact h3 ⟨[0, 1], [1]⟩ (1/4) (3/4) ⟨rfl, by norm_num [List.pairwise_cons]⟩
      (by simp) (by norm_num [List.getD]) (by norm_num) (by norm_num [List.getD])

theorem get_x_phys_strictMono (a b p q : ℚ) (hab : a < b) (hpq : p < q) :
    get_x_phys p a b < get_x_phys q a b := by
  have h2 : (0 : ℚ) < (b - a) / 2 := by linarith
  have := mul_lt_mul_of_pos_right hpq h2
  rw [get_x_phys, get_x_phys]
  calc (a + b) / 2 + p * (b - a) / 2 = (a + b) / 2 + p * ((b - a) / 2) := by ring
    _ < (a + b) / 2 + q * ((b - a) / 2) := by linarith
    _ = (a + b) / 2 + q * (b - a) / 2 := by ring

/-- Claim C8: a polynomial `f` of degree `≤ d`, sampled into a `Function`
on a valid mesh whose every element order is `≥ d`, is reproduced by
`Function.__call__` within `1e-12` (in the exact-arithmetic model, on the
nose) at every point of the mesh's interval. -/
theorem claim8_interpolation (refPts : ℕ → List ℚ) (f : Polynomial ℚ) (d : ℕ)
    (m : Mesh1D) (x : ℚ)
    (href : refPtsOK refPts) (hv : m.valid) (hne : m.orders ≠ [])
    (hord : ∀ o ∈ m.orders, (d : ℤ) ≤ o)
    (hdeg : f.degree ≤ (d : WithBot ℕ))
    (hx1 : m.points.getD 0 0 ≤ x)
    (hx2 : x ≤ m.points.getD (m.points.length - 1) 0) :
    ∃ y, (Function.sample refPts (fun t => f.eval t) m).call refPts x = some y ∧
      |y - f.eval x| < eps := by
  obtain ⟨hlen, hsort⟩ := hv
  obtain ⟨n, heap, hnE, _, _⟩ :=
    element_at_point_some m ⟨hlen, hsort⟩ x hne hx2
  have hgid : m.get_element_by_id n =
      some (m.points.getD n 0, m.points.getD (n + 1) 0, m.orders.getD n 0) := by
    rw [Mesh1D.get_element_by_id, Mesh1D.iter_elems,
      elemsOf_getElem? _ _ n (by omega) hnE]
  set a := m.points.getD n 0 with hadef
  set b := m.points.getD (n + 1) 0 with hbdef
  set o := m.orders.getD n 0 with hodef
  have hab : a < b := getD_pairwise _ hsort n (n + 1) (by omega) (by omega)
  have hdoZ : (d : ℤ) ≤ o := hord o (getD_mem _ _ _ hnE)
  have ho0 : (0 : ℤ) ≤ o := le_trans (Int.ofNat_nonneg d) hdoZ
  have hdo : d ≤ o.toNat := by omega
  set vals := (refPts o.toNat).map (fun p => f.eval (get_x_phys p a b)) with hvals
  have hvlen : vals.length = o.toNat + 1 := by
    rw [hvals, List.length_map, (href o.toNat).1]
  have hvget : (Function.sample refPts (fun t => f.eval t) m).values[n]? = some vals := by
    show (m.iter_elems.map _)[n]? = _
    rw [List.getElem?_map, Mesh1D.iter_elems, elemsOf_getElem? _ _ n (by omega) hnE]
    rfl
  -- the interpolating polynomial of the sampled values is f itself
  have hpoly : get_polynomial refPts vals a b = f := by
    rw [get_polynomial, hvlen]
    rw [show o.toNat + 1 - 1 = o.toNat from by omega]
    have hrlen := (href o.toNat).1
    have hrsort := (href o.toNat).2
    have hmono : ∀ i j : ℕ, i < j → j < o.toNat + 1 →
        get_x_phys ((refPts o.toNat).getD i 0) a b <
          get_x_phys ((refPts o.toNat).getD j 0) a b := by
      intro i j hij hj
      exact get_x_phys_strictMono a b _ _ hab
        (getD_pairwise _ hrsort i j hij (by omega))
    have hinj : Set.InjOn (fun i => get_x_phys ((refPts o.toNat).getD i 0) a b)
        (Finset.range (o.toNat + 1)) := by
      intro i hi j hj he
      simp only [Finset.coe_sort_coe, Finset.mem_coe, Finset.mem_range] at hi hj
      rcases lt_trichotomy i j with h | h | h
      · exact absurd he (ne_of_lt (hmono i j h hj))
      · exact h
      · exact absurd he.symm (ne_of_lt (hmono j i h hi))
    have hdlt : f.degree < (Finset.range (o.toNat + 1)).card := by
      rw [Finset.card_range]
      exact lt_of_le_of_lt hdeg (by exact_mod_cast Nat.lt_succ_of_le hdo)
    have heval : ∀ i ∈ Finset.range (o.toNat + 1),
        f.eval (get_x_phys ((refPts o.toNat).getD i 0) a b) = vals.getD i 0 := by
      intro i hi
      rw [Finset.mem_range] at hi
      have hi2 : i < (refPts o.toNat).length := by omega
      have h3 : vals.getD i 0 = f.eval (get_x_phys ((refPts o.toNat).getD i 0) a b) := by
        rw [hvals]
        rw [List.getD_eq_getElem?_getD,
          List.getElem?_eq_getElem (by simpa [List.length_map] using hi2),
          List.getElem_map]
        rw [List.getD_eq_getElem?_getD, List.getElem?_eq_getElem hi2]
        rfl
      rw [h3]
    exact (Lagrange.eq_interpolate_of_eval_eq _ hinj hdlt heval).symm
  refine ⟨f.eval x, ?_, by simpa using eps_pos⟩
  have hmesh : (Function.sample refPts (fun t => Polynomial.eval t f) m).mesh = m := rfl
  rw [Function.call, hmesh, heap, Option.some_bind, hgid, Option.some_bind, hvget,
    Option.map_some', hpoly]

/-- Witness for C8: the constant polynomial `37` on `Mesh1D((0,1),(0))`
with equidistant reference points, evaluated at `x = 1/2`. -/
theorem claim8_interpolation_witness :
    ∃ y, (Function.sample (fun k => List.map (fun i : ℕ => (i : ℚ)) (List.range (k + 1)))
        (fun t => (Polynomial.C (37 : ℚ)).eval t) ⟨[0, 1], [0]⟩).call
        (fun k => List.map (fun i : ℕ => (i : ℚ)) (List.range (k + 1))) (1/2) = some y ∧
      |y - (Polynomial.C (37 : ℚ)).eval (1/2)| < eps := by
  apply claim8_interpolation _ _ 0
  · intro k
    constructor
    · rw [List.length_map, List.length_range]
    · rw [List.pairwise_map]
      exact (List.pairwise_lt_range (k + 1)).imp (fun h => by exact_mod_cast h)
  · exact ⟨rfl, by norm_num [List.pairwise_cons]⟩
  · simp
  · intro o ho
    simp at ho
    omega
  · simpa using Polynomial.degree_C_le
  · norm_num [List.getD]
  · norm_num [List.getD]

end Fekete
